import Mathlib

/-!
Verification of the Hangul structural analyzer (`src/hangul.js`).

Texts are modelled as lists of Unicode code points (`List Nat`): JavaScript
`for (const ch of text)` iterates code points, and every character relevant to
the analysis lies in the BMP.  Jamo symbols are modelled as `String`, matching
the JavaScript string tables.  Exact rational arithmetic (`ℚ`) models the
floating-point computations that are exact in spirit (ratios, rounding);
`ℝ` enters only where the source uses `Math.sqrt` and `Math.log2`.
-/

set_option maxRecDepth 4000

namespace Hangul

/-- 초성 (initial consonants) - 19 total. -/
def CHOSEONG : List String :=
  ["ㄱ", "ㄲ", "ㄴ", "ㄷ", "ㄸ", "ㄹ", "ㅁ", "ㅂ", "ㅃ", "ㅅ",
   "ㅆ", "ㅇ", "ㅈ", "ㅉ", "ㅊ", "ㅋ", "ㅌ", "ㅍ", "ㅎ"]

/-- 중성 (medial vowels) - 21 total. -/
def JUNGSEONG : List String :=
  ["ㅏ", "ㅐ", "ㅑ", "ㅒ", "ㅓ", "ㅔ", "ㅕ", "ㅖ", "ㅗ", "ㅘ",
   "ㅙ", "ㅚ", "ㅛ", "ㅜ", "ㅝ", "ㅞ", "ㅟ", "ㅠ", "ㅡ", "ㅢ", "ㅣ"]

/-- 종성 (final consonants) - 28 total (index 0 = no final consonant). -/
def JONGSEONG : List String :=
  ["", "ㄱ", "ㄲ", "ㄳ", "ㄴ", "ㄵ", "ㄶ", "ㄷ", "ㄹ", "ㄺ",
   "ㄻ", "ㄼ", "ㄽ", "ㄾ", "ㄿ", "ㅀ", "ㅁ", "ㅂ", "ㅄ", "ㅅ",
   "ㅆ", "ㅇ", "ㅈ", "ㅊ", "ㅋ", "ㅌ", "ㅍ", "ㅎ"]

/-- `VOWEL_TYPES.bright` (양성모음). -/
def brightVowelList : List String :=
  ["ㅏ", "ㅐ", "ㅑ", "ㅒ", "ㅗ", "ㅘ", "ㅙ", "ㅚ", "ㅛ"]

/-- `VOWEL_TYPES.dark` (음성모음). -/
def darkVowelList : List String :=
  ["ㅓ", "ㅔ", "ㅕ", "ㅖ", "ㅜ", "ㅝ", "ㅞ", "ㅟ", "ㅠ"]

/-- `VOWEL_TYPES.neutral` (중성모음). -/
def neutralVowelList : List String := ["ㅡ", "ㅢ", "ㅣ"]

def SYLLABLE_BASE : Nat := 0xAC00

def SYLLABLE_END : Nat := 0xD7A3

/-- JavaScript `Array.prototype.indexOf`: first index of `s` in `l`, `-1` when absent. -/
def jsIndexOf (l : List String) (s : String) : Int :=
  match l with
  | [] => -1
  | x :: xs =>
    if x == s then 0
    else
      let r := jsIndexOf xs s
      if r < 0 then -1 else r + 1

/-- `isSyllable(ch)`: code point lies in the Hangul syllable block. -/
def isSyllable (c : Nat) : Bool :=
  SYLLABLE_BASE ≤ c && c ≤ SYLLABLE_END

/-- The record returned by `decompose`. -/
structure Decomposed where
  syllable : Nat
  cho : String
  jung : String
  jong : Option String
  choIdx : Nat
  jungIdx : Nat
  jongIdx : Nat
  hasJong : Bool
  deriving Repr, DecidableEq

/-- `decompose(ch)`.  In the source, `code - jongIdx` is exactly divisible by 28,
so `(code - jongIdx) / 28` is the integer `code / 28`; `JONGSEONG[jongIdx] || null`
turns the empty string (index 0) into an absent final. -/
def decompose (c : Nat) : Option Decomposed :=
  if isSyllable c then
    let code := c - SYLLABLE_BASE
    let jongIdx := code % 28
    let jungIdx := (code / 28) % 21
    let choIdx := code / 28 / 21
    let jongSym := JONGSEONG.getD jongIdx ""
    some { syllable := c
           cho := CHOSEONG.getD choIdx ""
           jung := JUNGSEONG.getD jungIdx ""
           jong := if jongSym = "" then none else some jongSym
           choIdx := choIdx
           jungIdx := jungIdx
           jongIdx := jongIdx
           hasJong := jongIdx != 0 }
  else none

/-- `compose(cho, jung, jong = '')`.  An empty `jong` is falsy, giving final
index 0; a negative index from any lookup yields `null`. -/
def compose (cho jung jong : String) : Option Nat :=
  let choIdx := jsIndexOf CHOSEONG cho
  let jungIdx := jsIndexOf JUNGSEONG jung
  let jongIdx : Int := if jong = "" then 0 else jsIndexOf JONGSEONG jong
  if choIdx < 0 || jungIdx < 0 || jongIdx < 0 then none
  else some (((SYLLABLE_BASE : Int) + (choIdx * 21 + jungIdx) * 28 + jongIdx).toNat)

lemma choseong_index_roundTrip :
    ∀ i : Fin 19, jsIndexOf CHOSEONG (CHOSEONG.getD i "") = (i : Int) := by
  decide

lemma jungseong_index_roundTrip :
    ∀ i : Fin 21, jsIndexOf JUNGSEONG (JUNGSEONG.getD i "") = (i : Int) := by
  decide

lemma jongseong_index_roundTrip :
    ∀ i : Fin 28,
      (if JONGSEONG.getD i "" = "" then (0 : Int)
       else jsIndexOf JONGSEONG (JONGSEONG.getD i "")) = (i : Int) := by
  decide

lemma syllable_base_eq : SYLLABLE_BASE = 44032 := rfl

lemma syllable_end_eq : SYLLABLE_END = 55203 := rfl

lemma compose_some (cho jung jong : String) (i j k : Nat)
    (hc : jsIndexOf CHOSEONG cho = (i : Int))
    (hj : jsIndexOf JUNGSEONG jung = (j : Int))
    (hg : (if jong = "" then (0 : Int) else jsIndexOf JONGSEONG jong) = (k : Int)) :
    compose cho jung jong = some (SYLLABLE_BASE + (i * 21 + j) * 28 + k) := by
  unfold compose
  rw [hc, hj, hg]
  dsimp only
  split
  · rename_i hcond
    simp only [Bool.or_eq_true, decide_eq_true_eq] at hcond
    omega
  · congr 1

/-- C1: for every code point `p` in `[0xAC00, 0xD7A3]`, `decompose` of the
character with code point `p` yields a record whose components, fed back to
`compose` (an absent final passed as the empty string, i.e. "no final"),
recompose exactly the code point `p`. -/
theorem decompose_compose_roundTrip (p : Nat)
    (h1 : SYLLABLE_BASE ≤ p) (h2 : p ≤ SYLLABLE_END) :
    ∃ d, decompose p = some d ∧ compose d.cho d.jung (d.jong.getD "") = some p := by
  obtain ⟨c, hlt, rfl⟩ : ∃ c, c < 11172 ∧ p = SYLLABLE_BASE + c := by
    refine ⟨p - SYLLABLE_BASE, ?_, ?_⟩
    · rw [syllable_base_eq]
      rw [syllable_end_eq] at h2
      omega
    · rw [syllable_base_eq] at h1 ⊢
      omega
  have hs : isSyllable (SYLLABLE_BASE + c) = true := by
    simp only [isSyllable, syllable_base_eq, syllable_end_eq] at h2 ⊢
    simp only [Bool.and_eq_true, decide_eq_true_eq]
    omega
  have hsub : SYLLABLE_BASE + c - SYLLABLE_BASE = c := by omega
  refine ⟨Decomposed.mk (SYLLABLE_BASE + c) (CHOSEONG.getD (c / 28 / 21) "")
      (JUNGSEONG.getD (c / 28 % 21) "")
      (if JONGSEONG.getD (c % 28) "" = "" then none
       else some (JONGSEONG.getD (c % 28) ""))
      (c / 28 / 21) (c / 28 % 21) (c % 28) (c % 28 != 0), ?_, ?_⟩
  · simp [decompose, hs, hsub]
  · have hcho : c / 28 / 21 < 19 := by omega
    have hjung : c / 28 % 21 < 21 := by omega
    have hjong : c % 28 < 28 := by omega
    have hc := choseong_index_roundTrip ⟨c / 28 / 21, hcho⟩
    have hj := jungseong_index_roundTrip ⟨c / 28 % 21, hjung⟩
    have hg := jongseong_index_roundTrip ⟨c % 28, hjong⟩
    simp only [Fin.val_mk] at hc hj hg
    have hjongD :
        (Option.getD (if JONGSEONG.getD (c % 28) "" = ""
          then none else some (JONGSEONG.getD (c % 28) "")) "")
          = JONGSEONG.getD (c % 28) "" := by
      by_cases h : JONGSEONG.getD (c % 28) "" = ""
      · rw [if_pos h, Option.getD_none, h]
      · rw [if_neg h, Option.getD_some]
    dsimp only
    rw [hjongD]
    rw [compose_some _ _ _ (c / 28 / 21) (c / 28 % 21) (c % 28) hc hj hg]
    exact Option.some_inj.mpr (by omega)

/-- C1 witness at `p = 0xD55C` ('한'). -/
theorem decompose_compose_roundTrip_witness :
    SYLLABLE_BASE ≤ 0xD55C ∧ (0xD55C : Nat) ≤ SYLLABLE_END ∧
    ∃ d, decompose 0xD55C = some d ∧
      compose d.cho d.jung (d.jong.getD "") = some 0xD55C :=
  ⟨by decide, by decide, decompose_compose_roundTrip 0xD55C (by decide) (by decide)⟩

lemma choseong_getD_mem : ∀ i : Fin 19, CHOSEONG.getD i "" ∈ CHOSEONG := by
  decide

lemma jungseong_getD_mem : ∀ i : Fin 21, JUNGSEONG.getD i "" ∈ JUNGSEONG := by
  decide

lemma jongseong_getD_mem : ∀ i : Fin 28, JONGSEONG.getD i "" ∈ JONGSEONG := by
  decide

/-- C10: for every code point in the syllable block, the indices computed by
`decompose` satisfy `choIdx < 19`, `jungIdx < 21`, `jongIdx < 28`; the
`cho`/`jung` fields are actual table symbols, the `jong` field is a table
symbol or absent, and `hasJong` holds exactly when `jongIdx ≠ 0`. -/
theorem decompose_indices_inBounds (p : Nat)
    (h1 : SYLLABLE_BASE ≤ p) (h2 : p ≤ SYLLABLE_END) :
    ∃ d, decompose p = some d ∧
      d.choIdx < 19 ∧ d.jungIdx < 21 ∧ d.jongIdx < 28 ∧
      d.cho ∈ CHOSEONG ∧ d.jung ∈ JUNGSEONG ∧
      (∀ s, d.jong = some s → s ∈ JONGSEONG) ∧
      (d.hasJong = true ↔ d.jongIdx ≠ 0) := by
  obtain ⟨c, hlt, rfl⟩ : ∃ c, c < 11172 ∧ p = SYLLABLE_BASE + c := by
    refine ⟨p - SYLLABLE_BASE, ?_, ?_⟩
    · rw [syllable_base_eq]
      rw [syllable_end_eq] at h2
      omega
    · rw [syllable_base_eq] at h1 ⊢
      omega
  have hs : isSyllable (SYLLABLE_BASE + c) = true := by
    simp only [isSyllable, syllable_base_eq, syllable_end_eq] at h2 ⊢
    simp only [Bool.and_eq_true, decide_eq_true_eq]
    omega
  have hsub : SYLLABLE_BASE + c - SYLLABLE_BASE = c := by omega
  refine ⟨Decomposed.mk (SYLLABLE_BASE + c) (CHOSEONG.getD (c / 28 / 21) "")
      (JUNGSEONG.getD (c / 28 % 21) "")
      (if JONGSEONG.getD (c % 28) "" = "" then none
       else some (JONGSEONG.getD (c % 28) ""))
      (c / 28 / 21) (c / 28 % 21) (c % 28) (c % 28 != 0), ?_, ?_⟩
  · simp [decompose, hs, hsub]
  · dsimp only
    refine ⟨by omega, by omega, by omega, ?_, ?_, ?_, ?_⟩
    · exact choseong_getD_mem ⟨c / 28 / 21, by omega⟩
    · exact jungseong_getD_mem ⟨c / 28 % 21, by omega⟩
    · intro s hsome
      by_cases hz : JONGSEONG.getD (c % 28) "" = ""
      · rw [if_pos hz] at hsome
        exact absurd hsome (by simp)
      · rw [if_neg hz] at hsome
        have : JONGSEONG.getD (c % 28) "" = s := by
          exact Option.some_inj.mp hsome
        rw [← this]
        exact jongseong_getD_mem ⟨c % 28, by omega⟩
    · simp [bne_iff_ne]

/-- C10 witness at `p = 0xAC01` ('각'). -/
theorem decompose_indices_inBounds_witness :
    SYLLABLE_BASE ≤ 0xAC01 ∧ (0xAC01 : Nat) ≤ SYLLABLE_END ∧
    ∃ d, decompose 0xAC01 = some d ∧
      d.choIdx < 19 ∧ d.jungIdx < 21 ∧ d.jongIdx < 28 ∧
      d.cho ∈ CHOSEONG ∧ d.jung ∈ JUNGSEONG ∧
      (∀ s, d.jong = some s → s ∈ JONGSEONG) ∧
      (d.hasJong = true ↔ d.jongIdx ≠ 0) :=
  ⟨by decide, by decide, decompose_indices_inBounds 0xAC01 (by decide) (by decide)⟩

lemma jsIndexOf_neg_iff (l : List String) (s : String) :
    jsIndexOf l s < 0 ↔ s ∉ l := by
  induction l with
  | nil => simp [jsIndexOf]
  | cons x xs ih =>
    simp only [jsIndexOf, List.mem_cons]
    by_cases hx : x == s
    · have hsx : s = x := (beq_iff_eq.mp hx).symm
      simp [hx, hsx]
    · have hne : ¬ s = x := fun h => hx (beq_iff_eq.mpr h.symm)
      rw [if_neg hx]
      by_cases hr : jsIndexOf xs s < 0
      · rw [if_pos hr]
        have hmem : s ∉ xs := ih.mp hr
        simp [hne, hmem]
      · rw [if_neg hr]
        have hmem : s ∈ xs := by
          by_contra hcon
          exact hr (ih.mpr hcon)
        constructor
        · intro hcon
          exact absurd hcon (by omega)
        · intro hcon
          exact absurd (Or.inr hmem) hcon

/-- C2 counterexample: `'ㄱ'` and `'ㅏ'` are recognized table symbols and `"x"`
is a non-empty string absent from the final-consonant table, yet
`compose('ㄱ','ㅏ','x')` returns absent rather than the composed character. -/
theorem compose_unknown_final_counterexample :
    compose "ㄱ" "ㅏ" "x" = none ∧
    "ㄱ" ∈ CHOSEONG ∧ "ㅏ" ∈ JUNGSEONG ∧ "x" ≠ "" ∧ "x" ∉ JONGSEONG := by
  refine ⟨by decide, by decide, by decide, by decide, by decide⟩

/-- C2 amended: `compose` returns absent exactly when the initial symbol is
unrecognized, the medial symbol is unrecognized, or the final is non-empty and
unrecognized (a non-empty unknown final yields index `-1`, not "no final"); an
empty final alone never causes an absent result. -/
theorem compose_none_iff (cho jung jong : String) :
    compose cho jung jong = none ↔
      (cho ∉ CHOSEONG ∨ jung ∉ JUNGSEONG ∨ (jong ≠ "" ∧ jong ∉ JONGSEONG)) := by
  have key : compose cho jung jong = none ↔
      (jsIndexOf CHOSEONG cho < 0 ∨ jsIndexOf JUNGSEONG jung < 0 ∨
       (if jong = "" then (0 : Int) else jsIndexOf JONGSEONG jong) < 0) := by
    unfold compose
    dsimp only
    by_cases hjz : jong = ""
    · rw [if_pos hjz]
      split
      · rename_i hcond
        refine iff_of_true rfl ?_
        simpa using hcond
      · rename_i hcond
        refine iff_of_false (by simp) ?_
        simpa using hcond
    · rw [if_neg hjz]
      split
      · rename_i hcond
        refine iff_of_true rfl ?_
        simp only [Bool.or_eq_true, decide_eq_true_eq] at hcond
        tauto
      · rename_i hcond
        refine iff_of_false (by simp) ?_
        simp only [Bool.or_eq_true, decide_eq_true_eq] at hcond
        push_neg at hcond ⊢
        tauto
  rw [key, jsIndexOf_neg_iff, jsIndexOf_neg_iff]
  by_cases hj : jong = ""
  · simp [hj]
  · simp [hj, jsIndexOf_neg_iff]

/-- Characterization of a successful `decompose`: the input code point lies in
the syllable block and every field of the record is determined by the offset. -/
lemma decompose_fields (c : Nat) (d : Decomposed) (h : decompose c = some d) :
    ∃ cc, cc < 11172 ∧ c = SYLLABLE_BASE + cc ∧
      d = Decomposed.mk (SYLLABLE_BASE + cc) (CHOSEONG.getD (cc / 28 / 21) "")
        (JUNGSEONG.getD (cc / 28 % 21) "")
        (if JONGSEONG.getD (cc % 28) "" = "" then none
         else some (JONGSEONG.getD (cc % 28) ""))
        (cc / 28 / 21) (cc / 28 % 21) (cc % 28) (cc % 28 != 0) := by
  by_cases hs : isSyllable c = true
  · have hb : SYLLABLE_BASE ≤ c ∧ c ≤ SYLLABLE_END := by
      simpa [isSyllable, Bool.and_eq_true, decide_eq_true_eq] using hs
    obtain ⟨cc, hlt, rfl⟩ : ∃ cc, cc < 11172 ∧ c = SYLLABLE_BASE + cc := by
      refine ⟨c - SYLLABLE_BASE, ?_, ?_⟩
      · rw [syllable_base_eq]
        have := hb.2
        rw [syllable_end_eq] at this
        omega
      · have := hb.1
        rw [syllable_base_eq] at this ⊢
        omega
    have hsub : SYLLABLE_BASE + cc - SYLLABLE_BASE = cc := by omega
    refine ⟨cc, hlt, rfl, ?_⟩
    have h2 : decompose (SYLLABLE_BASE + cc) =
        some (Decomposed.mk (SYLLABLE_BASE + cc) (CHOSEONG.getD (cc / 28 / 21) "")
          (JUNGSEONG.getD (cc / 28 % 21) "")
          (if JONGSEONG.getD (cc % 28) "" = "" then none
           else some (JONGSEONG.getD (cc % 28) ""))
          (cc / 28 / 21) (cc / 28 % 21) (cc % 28) (cc % 28 != 0)) := by
      simp [decompose, hs, hsub]
    rw [h] at h2
    exact Option.some_inj.mp h2
  · exfalso
    have : decompose c = none := by
      unfold decompose
      rw [if_neg hs]
    rw [this] at h
    exact Option.noConfusion h

lemma decompose_cho_mem (c : Nat) (d : Decomposed) (h : decompose c = some d) :
    d.cho ∈ CHOSEONG := by
  obtain ⟨cc, hlt, -, rfl⟩ := decompose_fields c d h
  exact choseong_getD_mem ⟨cc / 28 / 21, by omega⟩

lemma decompose_jung_mem (c : Nat) (d : Decomposed) (h : decompose c = some d) :
    d.jung ∈ JUNGSEONG := by
  obtain ⟨cc, hlt, -, rfl⟩ := decompose_fields c d h
  exact jungseong_getD_mem ⟨cc / 28 % 21, by omega⟩

/-! ## The analyzer (`analyze`) -/

/-- One step of building a JavaScript object used as a frequency table:
`obj[k] = (obj[k] || 0) + 1`.  The object is an association list in key
insertion order. -/
def bump (l : List (String × Nat)) (k : String) : List (String × Nat) :=
  match l with
  | [] => [(k, 1)]
  | (k', v) :: rest => if k' = k then (k', v + 1) :: rest else (k', v) :: bump rest k

/-- `obj[k] || 0` on a frequency object. -/
def freqLookup (l : List (String × Nat)) (k : String) : Nat :=
  match l with
  | [] => 0
  | (k', v) :: rest => if k' = k then v else freqLookup rest k

/-- Insertion step of a stable sort by strictly descending weight: the new
element goes after every element of weight `≥` its own. -/
def insertByW {α : Type} (w : α → Nat) (x : α) : List α → List α
  | [] => [x]
  | y :: ys => if w y < w x then x :: y :: ys else y :: insertByW w x ys

/-- Stable descending sort by weight, processing elements left to right.  This
is the unique stable result, hence models the (stable) JavaScript
`Array.prototype.sort` with comparator `(a, b) => w(b) - w(a)`. -/
def sortByWDesc {α : Type} (w : α → Nat) (l : List α) : List α :=
  l.foldl (fun acc x => insertByW w x acc) []

/-- `sortByValue(obj)`: entries sorted by descending count (`(a, b) => b[1] - a[1]`). -/
def sortByValue (l : List (String × Nat)) : List (String × Nat) :=
  sortByWDesc (fun e => e.2) l

/-- Mutable locals of the `analyze` loop. -/
structure AnalyzeState where
  syllables : List Decomposed
  totalSyllables : Nat
  withJong : Nat
  choFreq : List (String × Nat)
  jungFreq : List (String × Nat)
  jongFreq : List (String × Nat)
  bright : Nat
  dark : Nat
  neutral : Nat
  deriving Repr, DecidableEq

def initState : AnalyzeState := ⟨[], 0, 0, [], [], [], 0, 0, 0⟩

/-- One iteration of `for (const ch of text)` in `analyze`. -/
def analyzeStep (st : AnalyzeState) (ch : Nat) : AnalyzeState :=
  match decompose ch with
  | none => st
  | some d =>
    { syllables := st.syllables ++ [d]
      totalSyllables := st.totalSyllables + 1
      withJong := if d.jong.isSome then st.withJong + 1 else st.withJong
      choFreq := bump st.choFreq d.cho
      jungFreq := bump st.jungFreq d.jung
      jongFreq := match d.jong with
        | some j => bump st.jongFreq j
        | none => st.jongFreq
      bright := if d.jung ∈ brightVowelList then st.bright + 1 else st.bright
      dark := if d.jung ∈ brightVowelList then st.dark
              else if d.jung ∈ darkVowelList then st.dark + 1 else st.dark
      neutral := if d.jung ∈ brightVowelList then st.neutral
                 else if d.jung ∈ darkVowelList then st.neutral else st.neutral + 1 }

def analyzeState (text : List Nat) : AnalyzeState :=
  text.foldl analyzeStep initState

/-- The `vowelHarmony` sub-object of an analysis result. -/
structure VowelHarmony where
  bright : Nat
  dark : Nat
  neutral : Nat
  tendency : String
  deriving Repr, DecidableEq

/-- The value returned by `analyze`.  `ratioJong` models the source field
`jongRatio` (exact rational instead of a float). -/
structure AnalysisResult where
  syllables : List Decomposed
  totalSyllables : Nat
  withJong : Nat
  withoutJong : Nat
  ratioJong : ℚ
  choFreq : List (String × Nat)
  jungFreq : List (String × Nat)
  jongFreq : List (String × Nat)
  vowelHarmony : VowelHarmony
  deriving Repr, DecidableEq

/-- `analyze(text)`. -/
def analyze (text : List Nat) : AnalysisResult :=
  let st := analyzeState text
  { syllables := st.syllables
    totalSyllables := st.totalSyllables
    withJong := st.withJong
    withoutJong := st.totalSyllables - st.withJong
    ratioJong := if st.totalSyllables = 0 then 0 else (st.withJong : ℚ) / st.totalSyllables
    choFreq := sortByValue st.choFreq
    jungFreq := sortByValue st.jungFreq
    jongFreq := sortByValue st.jongFreq
    vowelHarmony := ⟨st.bright, st.dark, st.neutral,
      if st.dark < st.bright then "양성 (bright)"
      else if st.bright < st.dark then "음성 (dark)" else "균형 (balanced)"⟩ }

lemma foldl_preserves {α β : Type} (f : β → α → β) (P : β → Prop)
    (hstep : ∀ b a, P b → P (f b a)) :
    ∀ (l : List α) (b : β), P b → P (l.foldl f b) := by
  intro l
  induction l with
  | nil => intro b hb; exact hb
  | cons a l ih => intro b hb; exact ih (f b a) (hstep b a hb)

lemma analyzeState_inv (P : AnalyzeState → Prop) (h0 : P initState)
    (hstep : ∀ st c, P st → P (analyzeStep st c)) (t : List Nat) :
    P (analyzeState t) :=
  foldl_preserves analyzeStep P hstep t initState h0

lemma analyzeState_counts (t : List Nat) :
    (analyzeState t).withJong ≤ (analyzeState t).totalSyllables ∧
    (analyzeState t).bright + (analyzeState t).dark + (analyzeState t).neutral
      = (analyzeState t).totalSyllables := by
  refine analyzeState_inv
    (fun st => st.withJong ≤ st.totalSyllables ∧
      st.bright + st.dark + st.neutral = st.totalSyllables) (by simp [initState]) ?_ t
  intro st c hst
  unfold analyzeStep
  cases hdec : decompose c with
  | none => exact hst
  | some d =>
    dsimp only
    by_cases hb : d.jung ∈ brightVowelList
    · by_cases hjo : d.jong.isSome <;> simp [hb, hjo] <;> omega
    · by_cases hd : d.jung ∈ darkVowelList
      · by_cases hjo : d.jong.isSome <;> simp [hb, hd, hjo] <;> omega
      · by_cases hjo : d.jong.isSome <;> simp [hb, hd, hjo] <;> omega

lemma insertByW_perm {α : Type} (w : α → Nat) (x : α) (l : List α) :
    List.Perm (insertByW w x l) (x :: l) := by
  induction l with
  | nil => simp [insertByW]
  | cons y ys ih =>
    simp only [insertByW]
    by_cases h : w y < w x
    · rw [if_pos h]
    · rw [if_neg h]
      exact (List.Perm.cons y ih).trans (List.Perm.swap x y ys)

lemma insertByW_pairwise {α : Type} (w : α → Nat) (x : α) (l : List α)
    (hp : List.Pairwise (fun a b => w b ≤ w a) l) :
    List.Pairwise (fun a b => w b ≤ w a) (insertByW w x l) := by
  induction l with
  | nil => simp [insertByW]
  | cons y ys ih =>
    rw [List.pairwise_cons] at hp
    obtain ⟨hy, hys⟩ := hp
    simp only [insertByW]
    by_cases h : w y < w x
    · rw [if_pos h]
      refine List.pairwise_cons.mpr ⟨?_, List.pairwise_cons.mpr ⟨hy, hys⟩⟩
      intro z hz
      rcases List.mem_cons.mp hz with rfl | hz2
      · omega
      · have := hy z hz2
        omega
    · rw [if_neg h]
      refine List.pairwise_cons.mpr ⟨?_, ih hys⟩
      intro z hz
      have hz2 := (insertByW_perm w x ys).mem_iff.mp hz
      rcases List.mem_cons.mp hz2 with rfl | hz3
      · omega
      · exact hy z hz3

lemma insertByW_filter {α : Type} (w : α → Nat) (x : α) (n : Nat) (l : List α)
    (hp : List.Pairwise (fun a b => w b ≤ w a) l) :
    (insertByW w x l).filter (fun y => w y == n) =
      if w x = n then l.filter (fun y => w y == n) ++ [x]
      else l.filter (fun y => w y == n) := by
  induction l with
  | nil =>
    by_cases h : w x = n <;> simp [insertByW, h]
  | cons y ys ih =>
    rw [List.pairwise_cons] at hp
    obtain ⟨hy, hys⟩ := hp
    simp only [insertByW]
    by_cases h : w y < w x
    · rw [if_pos h]
      by_cases hx : w x = n
      · have hempty : (y :: ys).filter (fun z => w z == n) = [] := by
          rw [List.filter_eq_nil_iff]
          intro z hz
          rcases List.mem_cons.mp hz with rfl | hz2
          · simp only [beq_iff_eq]
            omega
          · have := hy z hz2
            simp only [beq_iff_eq]
            omega
        rw [if_pos hx]
        rw [List.filter_cons_of_pos (by simp [hx]), hempty]
        simp
      · rw [if_neg hx]
        rw [List.filter_cons_of_neg (by simp [hx])]
    · rw [if_neg h]
      rw [List.filter_cons, List.filter_cons, ih hys]
      by_cases hyn : w y = n <;> by_cases hx : w x = n <;>
        simp [hyn, hx]

lemma sortByWDesc_aux {α : Type} (w : α → Nat) (l : List α) :
    ∀ acc : List α, List.Pairwise (fun a b => w b ≤ w a) acc →
      List.Pairwise (fun a b => w b ≤ w a)
        (l.foldl (fun acc x => insertByW w x acc) acc) ∧
      ∀ n, (l.foldl (fun acc x => insertByW w x acc) acc).filter (fun y => w y == n)
          = acc.filter (fun y => w y == n) ++ l.filter (fun y => w y == n) := by
  induction l with
  | nil =>
    intro acc hacc
    exact ⟨hacc, fun n => by simp⟩
  | cons x l ih =>
    intro acc hacc
    have h1 := insertByW_pairwise w x acc hacc
    obtain ⟨hp, hf⟩ := ih (insertByW w x acc) h1
    refine ⟨hp, fun n => ?_⟩
    rw [List.foldl_cons, hf n, insertByW_filter w x n acc hacc, List.filter_cons]
    by_cases hx : w x = n
    · rw [if_pos hx]
      simp [hx]
    · rw [if_neg hx]
      simp [hx]

lemma sortByWDesc_pairwise {α : Type} (w : α → Nat) (l : List α) :
    List.Pairwise (fun a b => w b ≤ w a) (sortByWDesc w l) :=
  (sortByWDesc_aux w l [] (by simp)).1

lemma sortByWDesc_filter {α : Type} (w : α → Nat) (l : List α) (n : Nat) :
    (sortByWDesc w l).filter (fun y => w y == n) = l.filter (fun y => w y == n) := by
  have := (sortByWDesc_aux w l [] (by simp)).2 n
  simpa [sortByWDesc] using this

lemma sortByWDesc_perm {α : Type} (w : α → Nat) (l : List α) :
    List.Perm (sortByWDesc w l) l := by
  have aux : ∀ (l acc : List α),
      List.Perm (l.foldl (fun acc x => insertByW w x acc) acc) (acc ++ l) := by
    intro l
    induction l with
    | nil => intro acc; simp
    | cons x l ih =>
      intro acc
      rw [List.foldl_cons]
      refine (ih (insertByW w x acc)).trans ?_
      refine ((insertByW_perm w x acc).append_right l).trans ?_
      simp only [List.cons_append]
      exact List.perm_middle.symm
  simpa [sortByWDesc] using aux l []

/-- The keys of a JavaScript object, in insertion order: first-appearance
order of the key stream. -/
def firstSeen (l : List String) : List String :=
  l.foldl (fun acc x => if x ∈ acc then acc else acc ++ [x]) []

lemma bump_keys (l : List (String × Nat)) (k : String) :
    (bump l k).map Prod.fst =
      if k ∈ l.map Prod.fst then l.map Prod.fst else l.map Prod.fst ++ [k] := by
  induction l with
  | nil => simp [bump]
  | cons e rest ih =>
    obtain ⟨k2, v⟩ := e
    simp only [bump]
    by_cases h : k2 = k
    · subst h
      simp
    · rw [if_neg h]
      simp only [List.map_cons]
      rw [ih]
      have hne : ¬ k = k2 := fun hh => h hh.symm
      by_cases hm : k ∈ rest.map Prod.fst
      · rw [if_pos hm, if_pos (List.mem_cons.mpr (Or.inr hm))]
      · rw [if_neg hm, if_neg (by simp [hne, hm])]
        simp

lemma firstSeen_append_singleton (l : List String) (x : String) :
    firstSeen (l ++ [x]) =
      if x ∈ firstSeen l then firstSeen l else firstSeen l ++ [x] := by
  unfold firstSeen
  rw [List.foldl_append]
  simp

lemma analyzeState_keys (t : List Nat) :
    ((analyzeState t).choFreq.map Prod.fst
      = firstSeen ((analyzeState t).syllables.map (fun d => d.cho))) ∧
    ((analyzeState t).jungFreq.map Prod.fst
      = firstSeen ((analyzeState t).syllables.map (fun d => d.jung))) ∧
    ((analyzeState t).jongFreq.map Prod.fst
      = firstSeen ((analyzeState t).syllables.filterMap (fun d => d.jong))) := by
  refine analyzeState_inv
    (fun st =>
      (st.choFreq.map Prod.fst = firstSeen (st.syllables.map (fun d => d.cho))) ∧
      (st.jungFreq.map Prod.fst = firstSeen (st.syllables.map (fun d => d.jung))) ∧
      (st.jongFreq.map Prod.fst = firstSeen (st.syllables.filterMap (fun d => d.jong))))
    (by simp [initState, firstSeen]) ?_ t
  intro st c hst
  obtain ⟨h1, h2, h3⟩ := hst
  unfold analyzeStep
  cases hdec : decompose c with
  | none => exact ⟨h1, h2, h3⟩
  | some d =>
    dsimp only
    refine ⟨?_, ?_, ?_⟩
    · rw [bump_keys, h1, List.map_append, List.map_cons, List.map_nil,
        firstSeen_append_singleton]
    · rw [bump_keys, h2, List.map_append, List.map_cons, List.map_nil,
        firstSeen_append_singleton]
    · cases hjd : d.jong with
      | none =>
        simp only [hjd]
        rw [h3, List.filterMap_append]
        simp [hjd]
      | some j =>
        simp only [hjd]
        rw [bump_keys, h3, List.filterMap_append]
        simp only [List.filterMap_cons, hjd, List.filterMap_nil]
        rw [firstSeen_append_singleton]

/-- C3 counterexample: in `analyze('나가')` the initials `ㄴ` and `ㄱ` both
occur exactly once, `ㄱ` precedes `ㄴ` in the canonical jamo table, yet the
returned `choFreq` lists `ㄴ` first (first-appearance order, not table order). -/
theorem analyze_freq_tie_counterexample :
    (analyze [0xB098, 0xAC00]).choFreq = [("ㄴ", 1), ("ㄱ", 1)] ∧
    jsIndexOf CHOSEONG "ㄱ" < jsIndexOf CHOSEONG "ㄴ" :=
  ⟨by decide, by decide⟩

/-- C3 amended: the three frequency mappings returned by `analyze` are sorted
by descending count, and entries with equal counts keep the frequency object's
insertion order, which is the order of first appearance of the symbol in the
text (not the canonical jamo-table order). -/
theorem analyze_freq_sorted_stable (t : List Nat) :
    (List.Pairwise (fun a b => b.2 ≤ a.2) (analyze t).choFreq ∧
     List.Pairwise (fun a b => b.2 ≤ a.2) (analyze t).jungFreq ∧
     List.Pairwise (fun a b => b.2 ≤ a.2) (analyze t).jongFreq) ∧
    (∀ n : Nat,
      (analyze t).choFreq.filter (fun e => e.2 == n)
        = (analyzeState t).choFreq.filter (fun e => e.2 == n) ∧
      (analyze t).jungFreq.filter (fun e => e.2 == n)
        = (analyzeState t).jungFreq.filter (fun e => e.2 == n) ∧
      (analyze t).jongFreq.filter (fun e => e.2 == n)
        = (analyzeState t).jongFreq.filter (fun e => e.2 == n)) ∧
    ((analyzeState t).choFreq.map Prod.fst
        = firstSeen ((analyzeState t).syllables.map (fun d => d.cho)) ∧
     (analyzeState t).jungFreq.map Prod.fst
        = firstSeen ((analyzeState t).syllables.map (fun d => d.jung)) ∧
     (analyzeState t).jongFreq.map Prod.fst
        = firstSeen ((analyzeState t).syllables.filterMap (fun d => d.jong))) := by
  have hc : (analyze t).choFreq = sortByValue (analyzeState t).choFreq := rfl
  have hj : (analyze t).jungFreq = sortByValue (analyzeState t).jungFreq := rfl
  have hg : (analyze t).jongFreq = sortByValue (analyzeState t).jongFreq := rfl
  refine ⟨⟨?_, ?_, ?_⟩, fun n => ⟨?_, ?_, ?_⟩, analyzeState_keys t⟩
  · rw [hc]; exact sortByWDesc_pairwise _ _
  · rw [hj]; exact sortByWDesc_pairwise _ _
  · rw [hg]; exact sortByWDesc_pairwise _ _
  · rw [hc]; exact sortByWDesc_filter _ _ n
  · rw [hj]; exact sortByWDesc_filter _ _ n
  · rw [hg]; exact sortByWDesc_filter _ _ n

/-- C4: count conservation: for every text, `withJong + withoutJong` equals
`totalSyllables`, and the bright, dark and neutral vowel-harmony counts sum to
`totalSyllables`. -/
theorem analyze_count_conservation (t : List Nat) :
    (analyze t).withJong + (analyze t).withoutJong = (analyze t).totalSyllables ∧
    (analyze t).vowelHarmony.bright + (analyze t).vowelHarmony.dark +
      (analyze t).vowelHarmony.neutral = (analyze t).totalSyllables := by
  obtain ⟨h1, h2⟩ := analyzeState_counts t
  unfold analyze
  dsimp only
  exact ⟨by omega, h2⟩

/-! ## Rhyme detection (`findRhymes`) -/

/-- The ending key of a decomposed syllable: `s.jung + (s.jong || '')`. -/
def endingKey (s : Decomposed) : String :=
  s.jung ++ s.jong.getD ""

/-- One step of `endings[key].push(s.syllable)` (creating `endings[key] = []`
first when absent): association list in key insertion order, values in
push order. -/
def pushEnding (l : List (String × List Nat)) (k : String) (s : Nat) :
    List (String × List Nat) :=
  match l with
  | [] => [(k, [s])]
  | (k', v) :: rest =>
    if k' = k then (k', v ++ [s]) :: rest else (k', v) :: pushEnding rest k s

/-- `endings[k]`, the empty list when the key is absent. -/
def endingsLookup (l : List (String × List Nat)) (k : String) : List Nat :=
  match l with
  | [] => []
  | (k', v) :: rest => if k' = k then v else endingsLookup rest k

/-- `findRhymes(text)`: group syllables by ending key, keep groups of at
least two, sort by descending group size (stable JS sort). -/
def findRhymes (text : List Nat) : List (String × List Nat) :=
  let analysis := analyze text
  let endings := analysis.syllables.foldl
    (fun acc s => pushEnding acc (endingKey s) s.syllable) []
  sortByWDesc (fun e => e.2.length) (endings.filter (fun e => 1 < e.2.length))

lemma pushEnding_lookup (acc : List (String × List Nat)) (ks : String) (s : Nat)
    (k : String) :
    endingsLookup (pushEnding acc ks s) k =
      if k = ks then endingsLookup acc k ++ [s] else endingsLookup acc k := by
  induction acc with
  | nil =>
    by_cases h : k = ks
    · subst h
      simp [pushEnding, endingsLookup]
    · have h2 : ¬ ks = k := fun hh => h hh.symm
      simp [pushEnding, endingsLookup, h, h2]
  | cons e rest ih =>
    obtain ⟨k2, v⟩ := e
    by_cases h2 : k2 = ks
    · subst h2
      by_cases hk : k = k2
      · subst hk
        simp [pushEnding, endingsLookup]
      · have hk2 : ¬ k2 = k := fun hh => hk hh.symm
        simp [pushEnding, endingsLookup, hk, hk2]
    · by_cases hk : k2 = k
      · subst hk
        simp only [pushEnding, if_neg h2]
        simp [endingsLookup]
      · simp only [pushEnding, if_neg h2]
        simp only [endingsLookup, if_neg hk]
        exact ih

lemma pushEnding_keys (acc : List (String × List Nat)) (ks : String) (s : Nat) :
    (pushEnding acc ks s).map Prod.fst =
      if ks ∈ acc.map Prod.fst then acc.map Prod.fst else acc.map Prod.fst ++ [ks] := by
  induction acc with
  | nil => simp [pushEnding]
  | cons e rest ih =>
    obtain ⟨k2, v⟩ := e
    simp only [pushEnding]
    by_cases h : k2 = ks
    · subst h
      simp
    · rw [if_neg h]
      simp only [List.map_cons]
      rw [ih]
      have hne : ¬ ks = k2 := fun hh => h hh.symm
      by_cases hm : ks ∈ rest.map Prod.fst
      · rw [if_pos hm, if_pos (List.mem_cons.mpr (Or.inr hm))]
      · rw [if_neg hm, if_neg (by simp [hne, hm])]
        simp

lemma mem_iff_endingsLookup (acc : List (String × List Nat))
    (hnd : (acc.map Prod.fst).Nodup) (k : String) (v : List Nat) :
    (k, v) ∈ acc ↔ k ∈ acc.map Prod.fst ∧ endingsLookup acc k = v := by
  induction acc with
  | nil => simp [endingsLookup]
  | cons e rest ih =>
    obtain ⟨k2, v2⟩ := e
    simp only [List.map_cons, List.nodup_cons] at hnd
    obtain ⟨hk2, hrest⟩ := hnd
    simp only [List.mem_cons, List.map_cons, endingsLookup]
    by_cases h : k2 = k
    · subst h
      rw [if_pos rfl]
      constructor
      · intro hmem
        rcases hmem with heq | hmem2
        · have : v2 = v := (Prod.mk.injEq _ _ _ _).mp heq.symm |>.2
          exact ⟨Or.inl rfl, this⟩
        · exact absurd (List.mem_map.mpr ⟨(k2, v), hmem2, rfl⟩) hk2
      · intro ⟨_, hv⟩
        subst hv
        exact Or.inl rfl
    · rw [if_neg h]
      constructor
      · intro hmem
        rcases hmem with heq | hmem2
        · exact absurd ((Prod.mk.injEq _ _ _ _).mp heq.symm |>.1) h
        · have := (ih hrest).mp hmem2
          exact ⟨Or.inr this.1, this.2⟩
      · intro ⟨hmem, hv⟩
        rcases hmem with heq | hmem2
        · exact absurd heq.symm h
        · exact Or.inr ((ih hrest).mpr ⟨hmem2, hv⟩)

/-- Invariant of the grouping fold in `findRhymes`. -/
def EndingsInv (acc : List (String × List Nat)) (processed : List Decomposed) : Prop :=
  (acc.map Prod.fst).Nodup ∧
  (∀ k, endingsLookup acc k =
    (processed.filter (fun s => endingKey s == k)).map (fun s => s.syllable)) ∧
  (∀ k, k ∈ acc.map Prod.fst ↔
    (processed.filter (fun s => endingKey s == k)) ≠ [])

lemma endingsInv_step (acc : List (String × List Nat)) (processed : List Decomposed)
    (s : Decomposed) (h : EndingsInv acc processed) :
    EndingsInv (pushEnding acc (endingKey s) s.syllable) (processed ++ [s]) := by
  obtain ⟨hnd, hlook, hmem⟩ := h
  refine ⟨?_, ?_, ?_⟩
  · rw [pushEnding_keys]
    by_cases hm : endingKey s ∈ acc.map Prod.fst
    · rw [if_pos hm]
      exact hnd
    · rw [if_neg hm]
      refine List.Nodup.append hnd (List.nodup_singleton _) ?_
      intro a ha hb
      rw [List.mem_singleton] at hb
      subst hb
      exact hm ha
  · intro k
    rw [pushEnding_lookup, List.filter_append, List.map_append]
    by_cases hk : k = endingKey s
    · rw [if_pos hk, hlook]
      subst hk
      simp
    · rw [if_neg hk, hlook]
      have hf : List.filter (fun s2 => endingKey s2 == k) [s] = [] := by
        have : ¬ endingKey s = k := fun hh => hk hh.symm
        simp [this]
      rw [hf]
      simp
  · intro k
    rw [pushEnding_keys, List.filter_append]
    by_cases hk : k = endingKey s
    · subst hk
      have hr : processed.filter (fun s2 => endingKey s2 == endingKey s) ++
          List.filter (fun s2 => endingKey s2 == endingKey s) [s] ≠ [] := by
        simp
      have hl : endingKey s ∈
          (if endingKey s ∈ acc.map Prod.fst then acc.map Prod.fst
           else acc.map Prod.fst ++ [endingKey s]) := by
        by_cases hm : endingKey s ∈ acc.map Prod.fst
        · rw [if_pos hm]
          exact hm
        · rw [if_neg hm]
          simp
      exact iff_of_true hl hr
    · have hf : List.filter (fun s2 => endingKey s2 == k) [s] = [] := by
        have : ¬ endingKey s = k := fun hh => hk hh.symm
        simp [this]
      rw [hf, List.append_nil]
      have hsplit :
          k ∈ (if endingKey s ∈ acc.map Prod.fst then acc.map Prod.fst
               else acc.map Prod.fst ++ [endingKey s]) ↔ k ∈ acc.map Prod.fst := by
        by_cases hm : endingKey s ∈ acc.map Prod.fst
        · rw [if_pos hm]
        · rw [if_neg hm]
          simp only [List.mem_append, List.mem_singleton]
          constructor
          · intro hor
            rcases hor with hin | heq
            · exact hin
            · exact absurd heq hk
          · intro hin
            exact Or.inl hin
      rw [hsplit]
      exact hmem k

lemma findRhymes_endings_inv (t : List Nat) :
    EndingsInv
      ((analyze t).syllables.foldl
        (fun acc s => pushEnding acc (endingKey s) s.syllable) [])
      (analyze t).syllables := by
  have aux : ∀ (l : List Decomposed) (acc : List (String × List Nat))
      (processed : List Decomposed), EndingsInv acc processed →
      EndingsInv (l.foldl (fun acc s => pushEnding acc (endingKey s) s.syllable) acc)
        (processed ++ l) := by
    intro l
    induction l with
    | nil =>
      intro acc processed h
      simpa using h
    | cons s l ih =>
      intro acc processed h
      rw [List.foldl_cons]
      have := ih (pushEnding acc (endingKey s) s.syllable) (processed ++ [s])
        (endingsInv_step acc processed s h)
      simpa [List.append_assoc] using this
  have h0 : EndingsInv [] [] := ⟨by simp, fun k => by simp [endingsLookup], fun k => by simp⟩
  simpa using aux (analyze t).syllables [] [] h0

/-- C7: `findRhymes` groups all decomposed syllables (duplicates included, in
order of appearance) by the key "medial ++ final" (empty final when absent),
keeps only groups of at least 2, returns them sorted by descending group size;
and `findRhymes('산간만')` maps the single key `'ㅏㄴ'` to `['산','간','만']`. -/
theorem findRhymes_spec (t : List Nat) :
    (∀ k v, (k, v) ∈ findRhymes t →
        2 ≤ v.length ∧
        v = ((analyze t).syllables.filter (fun s => endingKey s == k)).map
              (fun s => s.syllable)) ∧
    List.Pairwise (fun a b => b.2.length ≤ a.2.length) (findRhymes t) ∧
    (∀ k, 2 ≤ ((analyze t).syllables.filter (fun s => endingKey s == k)).length →
        k ∈ (findRhymes t).map Prod.fst) ∧
    findRhymes [0xC0B0, 0xAC04, 0xB9CC] = [("ㅏㄴ", [0xC0B0, 0xAC04, 0xB9CC])] := by
  obtain ⟨hnd, hlook, hmem⟩ := findRhymes_endings_inv t
  have hfr : findRhymes t = sortByWDesc (fun e => e.2.length)
      (((analyze t).syllables.foldl
        (fun acc s => pushEnding acc (endingKey s) s.syllable) []).filter
        (fun e => 1 < e.2.length)) := rfl
  refine ⟨?_, ?_, ?_, by decide⟩
  · intro k v hkv
    rw [hfr] at hkv
    have h1 := (sortByWDesc_perm _ _).mem_iff.mp hkv
    have h2 := List.mem_filter.mp h1
    have hlen : 1 < v.length := by simpa using h2.2
    have h3 := (mem_iff_endingsLookup _ hnd k v).mp h2.1
    refine ⟨by omega, ?_⟩
    rw [← h3.2, hlook k]
  · rw [hfr]
    exact sortByWDesc_pairwise _ _
  · intro k hklen
    have hne : ((analyze t).syllables.filter (fun s => endingKey s == k)) ≠ [] := by
      intro hnil
      rw [hnil] at hklen
      simp at hklen
    have hkin := (hmem k).mpr hne
    have hv := hlook k
    have hmem2 := (mem_iff_endingsLookup _ hnd k _).mpr ⟨hkin, rfl⟩
    have hflt : (k, endingsLookup
        ((analyze t).syllables.foldl
          (fun acc s => pushEnding acc (endingKey s) s.syllable) []) k) ∈
        (((analyze t).syllables.foldl
          (fun acc s => pushEnding acc (endingKey s) s.syllable) []).filter
          (fun e => 1 < e.2.length)) := by
      refine List.mem_filter.mpr ⟨hmem2, ?_⟩
      simp only [decide_eq_true_eq]
      rw [hv, List.length_map]
      omega
    have hsrt := (sortByWDesc_perm (fun e => e.2.length) _).mem_iff.mpr hflt
    rw [hfr]
    exact List.mem_map.mpr ⟨_, hsrt, rfl⟩

/-- C7 witness: the group of key `'ㅏㄴ'` in `findRhymes('산간만')` satisfies
the per-group properties of `findRhymes_spec`. -/
theorem findRhymes_spec_witness :
    ("ㅏㄴ", [0xC0B0, 0xAC04, 0xB9CC]) ∈ findRhymes [0xC0B0, 0xAC04, 0xB9CC] ∧
    2 ≤ ([0xC0B0, 0xAC04, 0xB9CC] : List Nat).length ∧
    ([0xC0B0, 0xAC04, 0xB9CC] : List Nat)
      = ((analyze [0xC0B0, 0xAC04, 0xB9CC]).syllables.filter
          (fun s => endingKey s == "ㅏㄴ")).map (fun s => s.syllable) :=
  ⟨by decide,
   ((findRhymes_spec [0xC0B0, 0xAC04, 0xB9CC]).1 "ㅏㄴ" _ (by decide)).1,
   ((findRhymes_spec [0xC0B0, 0xAC04, 0xB9CC]).1 "ㅏㄴ" _ (by decide)).2⟩

/-! ## Vowel harmony patterns (`vowelHarmonyAnalysis`) -/

/-- The ECMAScript `\s` character class (WhiteSpace and LineTerminator code
points), used by `text.split(/\s+/)` and `String.prototype.trim`. -/
def isWs (c : Nat) : Bool :=
  c = 9 || c = 10 || c = 11 || c = 12 || c = 13 || c = 32 || c = 0xA0 ||
  c = 0x1680 || (0x2000 ≤ c && c ≤ 0x200A) || c = 0x2028 || c = 0x2029 ||
  c = 0x202F || c = 0x205F || c = 0x3000 || c = 0xFEFF

/-- `text.split(/\s+/)`: tokens between maximal whitespace runs, with the
leading/trailing empty tokens JavaScript produces.  A whitespace character
extends the separator run when the next character is also whitespace and
otherwise closes an (empty-so-far) token before the rest of the split. -/
def splitWs : List Nat → List (List Nat)
  | [] => [[]]
  | c :: rest =>
    let r := splitWs rest
    if isWs c then
      match rest with
      | [] => [] :: r
      | c2 :: _ => if isWs c2 then r else [] :: r
    else
      match r with
      | [] => [[c]]
      | tok :: ts => (c :: tok) :: ts

/-- One entry of the `vowelHarmonyAnalysis` result. -/
structure WordPattern where
  word : List Nat
  pattern : String
  deriving Repr, DecidableEq

/-- The symbol pushed for one decomposed syllable: `+` bright, `-` dark,
`·` otherwise (neutral). -/
def harmonySymbol (d : Decomposed) : String :=
  if d.jung ∈ brightVowelList then "+"
  else if d.jung ∈ darkVowelList then "-" else "·"

/-- The `pattern` array built by the inner loop of `vowelHarmonyAnalysis`
(non-syllables contribute nothing). -/
def wordPattern (word : List Nat) : List String :=
  word.foldl (fun pat c =>
    match decompose c with
    | none => pat
    | some d => pat ++ [harmonySymbol d]) []

/-- `vowelHarmonyAnalysis(text)`.  The source also computes `analyze(text)`
into an unused local, which has no effect and is omitted. -/
def vowelHarmonyAnalysis (text : List Nat) : List WordPattern :=
  let words := splitWs text
  words.foldl (fun acc word =>
    let pattern := wordPattern word
    if 0 < pattern.length then acc ++ [⟨word, String.join pattern⟩] else acc) []

lemma wordPattern_eq (word : List Nat) :
    wordPattern word = (word.filterMap decompose).map harmonySymbol := by
  have aux : ∀ (l : List Nat) (acc : List String),
      l.foldl (fun pat c =>
        match decompose c with
        | none => pat
        | some d => pat ++ [harmonySymbol d]) acc
      = acc ++ (l.filterMap decompose).map harmonySymbol := by
    intro l
    induction l with
    | nil => intro acc; simp
    | cons c l ih =>
      intro acc
      rw [List.foldl_cons, List.filterMap_cons]
      cases hdec : decompose c with
      | none => simp [ih]
      | some d => simp [ih]
  simpa [wordPattern] using aux word []

lemma length_stringJoin (l : List String) :
    (String.join l).length = (l.map String.length).sum := by
  have aux : ∀ (l : List String) (s : String),
      (l.foldl (fun r s2 => r ++ s2) s).length
        = s.length + (l.map String.length).sum := by
    intro l
    induction l with
    | nil => intro s; simp
    | cons x xs ih =>
      intro s
      rw [List.foldl_cons, ih, List.map_cons, List.sum_cons, String.length_append]
      omega
  simpa [String.join] using aux l ""

lemma harmonySymbol_length (d : Decomposed) : (harmonySymbol d).length = 1 := by
  unfold harmonySymbol
  by_cases hb : d.jung ∈ brightVowelList
  · rw [if_pos hb]
    decide
  · rw [if_neg hb]
    by_cases hd : d.jung ∈ darkVowelList
    · rw [if_pos hd]
      decide
    · rw [if_neg hd]
      decide

/-- C8: every entry emitted by `vowelHarmonyAnalysis` comes from one token of
the whitespace split, its pattern is nonempty, is the concatenation of one
classification symbol (`+` bright / `-` dark / `·` neutral) per decomposable
syllable of the word in order, and has exactly one character per decomposable
syllable; and `vowelHarmonyAnalysis('아버지')` is the single entry
`(아버지, '+-·')`. -/
theorem vowelHarmonyAnalysis_spec (t : List Nat) :
    (∀ e, e ∈ vowelHarmonyAnalysis t →
        e.pattern ≠ "" ∧
        e.pattern = String.join ((e.word.filterMap decompose).map harmonySymbol) ∧
        e.pattern.length = (e.word.filterMap decompose).length ∧
        e.word ∈ splitWs t) ∧
    vowelHarmonyAnalysis [0xC544, 0xBC84, 0xC9C0]
      = [⟨[0xC544, 0xBC84, 0xC9C0], "+-·"⟩] := by
  refine ⟨?_, by decide⟩
  have aux : ∀ (ws : List (List Nat)) (acc : List WordPattern),
      (∀ e ∈ acc,
        e.pattern = String.join (wordPattern e.word) ∧
        0 < (wordPattern e.word).length ∧ e.word ∈ splitWs t) →
      (∀ w ∈ ws, w ∈ splitWs t) →
      ∀ e ∈ ws.foldl (fun acc word =>
          let pattern := wordPattern word
          if 0 < pattern.length then acc ++ [⟨word, String.join pattern⟩] else acc) acc,
        e.pattern = String.join (wordPattern e.word) ∧
        0 < (wordPattern e.word).length ∧ e.word ∈ splitWs t := by
    intro ws
    induction ws with
    | nil =>
      intro acc hacc _ e he
      exact hacc e he
    | cons w ws ih =>
      intro acc hacc hws e he
      rw [List.foldl_cons] at he
      refine ih _ ?_ (fun w2 hw2 => hws w2 (List.mem_cons.mpr (Or.inr hw2))) e he
      intro e2 he2
      by_cases hlen : 0 < (wordPattern w).length
      · rw [if_pos hlen] at he2
        rcases List.mem_append.mp he2 with hin | hnew
        · exact hacc e2 hin
        · rw [List.mem_singleton] at hnew
          subst hnew
          exact ⟨rfl, hlen, hws w (List.mem_cons.mpr (Or.inl rfl))⟩
      · rw [if_neg hlen] at he2
        exact hacc e2 he2
  intro e he
  have h := aux (splitWs t) [] (by simp) (fun w hw => hw) e he
  obtain ⟨hpat, hlen, hmemw⟩ := h
  have hjoin : e.pattern
      = String.join ((e.word.filterMap decompose).map harmonySymbol) := by
    rw [hpat, wordPattern_eq]
  have hplen : e.pattern.length = (e.word.filterMap decompose).length := by
    rw [hjoin, length_stringJoin, List.map_map]
    have : ((e.word.filterMap decompose).map (String.length ∘ harmonySymbol))
        = (e.word.filterMap decompose).map (fun _ => 1) := by
      refine List.map_congr_left ?_
      intro d _
      simp [Function.comp, harmonySymbol_length]
    rw [this]
    simp [List.map_const]
  refine ⟨?_, hjoin, hplen, hmemw⟩
  intro hempty
  rw [wordPattern_eq] at hlen
  rw [hempty] at hplen
  simp only [String.length_empty] at hplen
  rw [List.length_map] at hlen
  omega

/-- C8 witness: the single entry of `vowelHarmonyAnalysis('아버지')` satisfies
the per-entry properties. -/
theorem vowelHarmonyAnalysis_spec_witness :
    (⟨[0xC544, 0xBC84, 0xC9C0], "+-·"⟩ : WordPattern)
      ∈ vowelHarmonyAnalysis [0xC544, 0xBC84, 0xC9C0] ∧
    ("+-·" : String) ≠ "" ∧
    (⟨[0xC544, 0xBC84, 0xC9C0], "+-·"⟩ : WordPattern).word
      ∈ splitWs [0xC544, 0xBC84, 0xC9C0] :=
  ⟨by decide,
   ((vowelHarmonyAnalysis_spec [0xC544, 0xBC84, 0xC9C0]).1
     ⟨[0xC544, 0xBC84, 0xC9C0], "+-·"⟩ (by decide)).1,
   ((vowelHarmonyAnalysis_spec [0xC544, 0xBC84, 0xC9C0]).1
     ⟨[0xC544, 0xBC84, 0xC9C0], "+-·"⟩ (by decide)).2.2.2⟩

/-! ## Frequency-table invariants used by the fingerprint -/

/-- Total of the counts stored in a frequency object. -/
def sumCounts (l : List (String × Nat)) : Nat :=
  (l.map Prod.snd).sum

lemma bump_sumCounts (l : List (String × Nat)) (k : String) :
    sumCounts (bump l k) = sumCounts l + 1 := by
  induction l with
  | nil => simp [bump, sumCounts]
  | cons e rest ih =>
    obtain ⟨k2, v⟩ := e
    by_cases h : k2 = k
    · subst h
      simp [bump, sumCounts]
      omega
    · simp only [bump, if_neg h, sumCounts, List.map_cons, List.sum_cons]
      simp only [sumCounts] at ih
      omega

lemma freqLookup_eq_zero_of_not_mem (l : List (String × Nat)) (k : String)
    (h : k ∉ l.map Prod.fst) : freqLookup l k = 0 := by
  induction l with
  | nil => simp [freqLookup]
  | cons e rest ih =>
    obtain ⟨k2, v⟩ := e
    simp only [List.map_cons, List.mem_cons] at h
    push_neg at h
    have hne : ¬ k2 = k := fun hh => h.1 hh.symm
    simp only [freqLookup, if_neg hne]
    exact ih h.2

lemma freqLookup_perm (l l2 : List (String × Nat)) (hp : List.Perm l l2)
    (hnd : (l.map Prod.fst).Nodup) (k : String) :
    freqLookup l k = freqLookup l2 k := by
  induction hp with
  | nil => rfl
  | cons x l1 ih =>
    obtain ⟨k2, v⟩ := x
    simp only [List.map_cons, List.nodup_cons] at hnd
    simp only [freqLookup]
    by_cases h : k2 = k
    · rw [if_pos h, if_pos h]
    · rw [if_neg h, if_neg h]
      exact ih hnd.2
  | swap x y l1 =>
    obtain ⟨kx, vx⟩ := x
    obtain ⟨ky, vy⟩ := y
    simp only [List.map_cons, List.nodup_cons, List.mem_cons] at hnd
    simp only [freqLookup]
    by_cases hky : ky = k
    · subst hky
      have hkx : ¬ kx = ky := fun hh => hnd.1 (Or.inl hh.symm)
      rw [if_pos rfl, if_neg hkx, if_pos rfl]
    · rw [if_neg hky]
      by_cases hkx : kx = k
      · rw [if_pos hkx, if_pos hkx]
      · rw [if_neg hkx, if_neg hkx, if_neg hky]
  | trans h1 h2 ih1 ih2 =>
    rename_i l1 l2x l3
    rw [ih1 hnd, ih2]
    have : (l1.map Prod.fst).Perm (l2x.map Prod.fst) := h1.map Prod.fst
    exact this.nodup_iff.mp hnd

lemma nat_mem_le_sum (l : List Nat) (x : Nat) (h : x ∈ l) : x ≤ l.sum := by
  induction l with
  | nil => simp at h
  | cons a rest ih =>
    rcases List.mem_cons.mp h with rfl | h2
    · simp
    · have := ih h2
      simp only [List.sum_cons]
      omega

lemma map_sum_zero {α : Type} (l : List α) (f : α → Nat)
    (h : ∀ x ∈ l, f x = 0) : (l.map f).sum = 0 := by
  induction l with
  | nil => simp
  | cons a rest ih =>
    simp only [List.map_cons, List.sum_cons]
    rw [h a (List.mem_cons.mpr (Or.inl rfl)), ih (fun x hx => h x (List.mem_cons.mpr (Or.inr hx)))]

lemma map_sum_add {α : Type} (l : List α) (f g : α → Nat) :
    (l.map (fun x => f x + g x)).sum = (l.map f).sum + (l.map g).sum := by
  induction l with
  | nil => simp
  | cons a rest ih =>
    simp only [List.map_cons, List.sum_cons, ih]
    omega

lemma sum_ite_single (k : String) (v : Nat) :
    ∀ (table : List String), table.Nodup → k ∈ table →
      (table.map (fun c => if k = c then v else 0)).sum = v := by
  intro table
  induction table with
  | nil => intro _ h; simp at h
  | cons t ts ih =>
    intro hnd hmem
    rw [List.nodup_cons] at hnd
    simp only [List.map_cons, List.sum_cons]
    rcases List.mem_cons.mp hmem with rfl | hmem2
    · have hz : (ts.map (fun c => if k = c then v else 0)).sum = 0 := by
        refine map_sum_zero ts _ ?_
        intro c hc
        rw [if_neg]
        intro hh
        subst hh
        exact hnd.1 hc
      rw [if_pos rfl, hz]
      omega
    · have hne : ¬ k = t := by
        intro hh
        subst hh
        exact hnd.1 hmem2
      rw [if_neg hne, ih hnd.2 hmem2]
      omega

lemma sum_lookup_over_table (l : List (String × Nat)) (table : List String)
    (hnd : (l.map Prod.fst).Nodup) (htn : table.Nodup)
    (hsub : ∀ k ∈ l.map Prod.fst, k ∈ table) :
    (table.map (freqLookup l)).sum = sumCounts l := by
  induction l with
  | nil =>
    rw [map_sum_zero table (freqLookup []) (fun c _ => rfl)]
    rfl
  | cons e rest ih =>
    obtain ⟨k, v⟩ := e
    simp only [List.map_cons, List.nodup_cons] at hnd
    have hk : k ∈ table := hsub k (by simp)
    have hrest : ∀ k2 ∈ rest.map Prod.fst, k2 ∈ table := by
      intro k2 hk2
      exact hsub k2 (by simp [hk2])
    have hpoint : ∀ c ∈ table,
        freqLookup ((k, v) :: rest) c = (if k = c then v else 0) + freqLookup rest c := by
      intro c _
      simp only [freqLookup]
      by_cases h : k = c
      · rw [if_pos h, if_pos h]
        subst h
        rw [freqLookup_eq_zero_of_not_mem rest k hnd.1]
        omega
      · rw [if_neg h, if_neg h]
        omega
    calc (table.map (freqLookup ((k, v) :: rest))).sum
        = (table.map (fun c => (if k = c then v else 0) + freqLookup rest c)).sum := by
          refine congrArg List.sum ?_
          exact List.map_congr_left hpoint
      _ = (table.map (fun c => if k = c then v else 0)).sum
            + (table.map (freqLookup rest)).sum := by
          exact map_sum_add table _ _
      _ = v + sumCounts rest := by
          rw [sum_ite_single k v table htn hk, ih hnd.2 hrest]
      _ = sumCounts ((k, v) :: rest) := by
          simp [sumCounts]

lemma analyzeState_freq_sums (t : List Nat) :
    (sumCounts (analyzeState t).choFreq = (analyzeState t).totalSyllables ∧
     ((analyzeState t).choFreq.map Prod.fst).Nodup ∧
     (∀ k ∈ (analyzeState t).choFreq.map Prod.fst, k ∈ CHOSEONG)) ∧
    (sumCounts (analyzeState t).jungFreq = (analyzeState t).totalSyllables ∧
     ((analyzeState t).jungFreq.map Prod.fst).Nodup ∧
     (∀ k ∈ (analyzeState t).jungFreq.map Prod.fst, k ∈ JUNGSEONG)) := by
  refine analyzeState_inv
    (fun st =>
      (sumCounts st.choFreq = st.totalSyllables ∧
       (st.choFreq.map Prod.fst).Nodup ∧
       (∀ k ∈ st.choFreq.map Prod.fst, k ∈ CHOSEONG)) ∧
      (sumCounts st.jungFreq = st.totalSyllables ∧
       (st.jungFreq.map Prod.fst).Nodup ∧
       (∀ k ∈ st.jungFreq.map Prod.fst, k ∈ JUNGSEONG)))
    (by simp [initState, sumCounts]) ?_ t
  intro st c hst
  obtain ⟨⟨hs1, hs2, hs3⟩, ⟨hj1, hj2, hj3⟩⟩ := hst
  unfold analyzeStep
  cases hdec : decompose c with
  | none => exact ⟨⟨hs1, hs2, hs3⟩, ⟨hj1, hj2, hj3⟩⟩
  | some d =>
    dsimp only
    have hkeys : ∀ (l : List (String × Nat)) (k : String) (tb : List String),
        (l.map Prod.fst).Nodup → (∀ k2 ∈ l.map Prod.fst, k2 ∈ tb) → k ∈ tb →
        ((bump l k).map Prod.fst).Nodup ∧
        (∀ k2 ∈ (bump l k).map Prod.fst, k2 ∈ tb) := by
      intro l k tb hnd hsub hktb
      rw [bump_keys]
      by_cases hm : k ∈ l.map Prod.fst
      · rw [if_pos hm]
        exact ⟨hnd, hsub⟩
      · rw [if_neg hm]
        constructor
        · refine List.Nodup.append hnd (List.nodup_singleton _) ?_
          intro a ha hb
          rw [List.mem_singleton] at hb
          subst hb
          exact hm ha
        · intro k2 hk2
          rcases List.mem_append.mp hk2 with hin | hone
          · exact hsub k2 hin
          · rw [List.mem_singleton] at hone
            subst hone
            exact hktb
    refine ⟨⟨?_, ?_, ?_⟩, ⟨?_, ?_, ?_⟩⟩
    · rw [bump_sumCounts, hs1]
    · exact (hkeys st.choFreq d.cho CHOSEONG hs2 hs3 (decompose_cho_mem c d hdec)).1
    · exact (hkeys st.choFreq d.cho CHOSEONG hs2 hs3 (decompose_cho_mem c d hdec)).2
    · rw [bump_sumCounts, hj1]
    · exact (hkeys st.jungFreq d.jung JUNGSEONG hj2 hj3 (decompose_jung_mem c d hdec)).1
    · exact (hkeys st.jungFreq d.jung JUNGSEONG hj2 hj3 (decompose_jung_mem c d hdec)).2

lemma analyzeState_syllables (t : List Nat) :
    (analyzeState t).syllables = t.filterMap decompose := by
  have aux : ∀ (l : List Nat) (st : AnalyzeState),
      (l.foldl analyzeStep st).syllables = st.syllables ++ l.filterMap decompose := by
    intro l
    induction l with
    | nil => intro st; simp
    | cons c l ih =>
      intro st
      rw [List.foldl_cons, List.filterMap_cons, ih]
      cases hdec : decompose c with
      | none =>
        have hstep : analyzeStep st c = st := by
          unfold analyzeStep
          rw [hdec]
        rw [hstep]
      | some d =>
        have hstep : (analyzeStep st c).syllables = st.syllables ++ [d] := by
          unfold analyzeStep
          rw [hdec]
        rw [hstep]
        simp
  have h0 : (initState).syllables = [] := rfl
  unfold analyzeState
  rw [aux t initState, h0, List.nil_append]

lemma analyzeState_total_eq_length (t : List Nat) :
    (analyzeState t).totalSyllables = (analyzeState t).syllables.length := by
  refine analyzeState_inv (fun st => st.totalSyllables = st.syllables.length)
    (by simp [initState]) ?_ t
  intro st c hst
  unfold analyzeStep
  cases hdec : decompose c with
  | none => exact hst
  | some d =>
    simp [hst]

/-! ## Phonetic fingerprint (`fingerprint`) -/

/-- The normalized initial-consonant profile: one entry per `CHOSEONG` symbol,
`(choFreq[c] || 0) / total`. -/
def choProfileOf (r : AnalysisResult) : List (String × ℚ) :=
  CHOSEONG.map (fun c => (c, (freqLookup r.choFreq c : ℚ) / (r.totalSyllables : ℚ)))

/-- The normalized medial-vowel profile. -/
def jungProfileOf (r : AnalysisResult) : List (String × ℚ) :=
  JUNGSEONG.map (fun v => (v, (freqLookup r.jungFreq v : ℚ) / (r.totalSyllables : ℚ)))

/-- `profile[c] || 0` on a profile object. -/
def profLookup (l : List (String × ℚ)) (k : String) : ℚ :=
  match l with
  | [] => 0
  | (k', v) :: rest => if k' = k then v else profLookup rest k

/-- `brightness`: `(bright - dark) / (bright + dark || 1)`. -/
def brightnessOf (r : AnalysisResult) : ℚ :=
  ((r.vowelHarmony.bright : ℚ) - (r.vowelHarmony.dark : ℚ)) /
    (if r.vowelHarmony.bright + r.vowelHarmony.dark = 0 then 1
     else ((r.vowelHarmony.bright + r.vowelHarmony.dark : Nat) : ℚ))

/-- `text.split('\n')`. -/
def splitNl : List Nat → List (List Nat)
  | [] => [[]]
  | c :: rest =>
    let r := splitNl rest
    if c = 10 then [] :: r
    else
      match r with
      | [] => [[c]]
      | tok :: ts => (c :: tok) :: ts

/-- `text.split('\n').filter(l => l.trim())`: the lines kept for the rhythm
statistic (those with at least one non-whitespace character). -/
def lineList (t : List Nat) : List (List Nat) :=
  (splitNl t).filter (fun l => l.any (fun c => !isWs c))

/-- Syllable count per kept line, zero-count lines dropped. -/
def lineLengths (t : List Nat) : List Nat :=
  ((lineList t).map (fun line => (line.filter (fun ch => isSyllable ch)).length)).filter
    (fun n => 0 < n)

/-- `avgLineLength` (0 when there are no counted lines). -/
def avgLineLength (t : List Nat) : ℚ :=
  if (lineLengths t).length = 0 then 0
  else ((lineLengths t).sum : ℚ) / ((lineLengths t).length : ℚ)

/-- `lineVariance` (population variance; 0 unless at least two counted lines). -/
def lineVariance (t : List Nat) : ℚ :=
  if 1 < (lineLengths t).length then
    ((lineLengths t).map (fun n => ((n : ℚ) - avgLineLength t) ^ 2)).sum
      / ((lineLengths t).length : ℚ)
  else 0

/-- `rhythmRegularity = avg > 0 ? 1 - min(1, sqrt(variance) / avg) : 0`. -/
noncomputable def rhythmRegularityOf (t : List Nat) : ℝ :=
  if 0 < avgLineLength t then
    1 - min 1 (Real.sqrt ((lineVariance t : ℚ) : ℝ) / ((avgLineLength t : ℚ) : ℝ))
  else 0

/-- `shannonEntropy(probs)`: `-Σ (p > 0 ? p·log2 p : 0)`. -/
noncomputable def shannonEntropy (probs : List ℚ) : ℝ :=
  -((probs.map (fun p => if 0 < p then ((p : ℚ) : ℝ) * Real.logb 2 ((p : ℚ) : ℝ) else 0)).sum)

/-- `consonantDiversity`: entropy of nonzero profile entries over `log2 19`. -/
noncomputable def consonantDiversityOf (r : AnalysisResult) : ℝ :=
  let choEntropy := shannonEntropy (((choProfileOf r).map Prod.snd).filter (fun v => 0 < v))
  let maxChoEntropy := Real.logb 2 ((CHOSEONG.length : Nat) : ℝ)
  if 0 < maxChoEntropy then choEntropy / maxChoEntropy else 0

/-- `vowelDiversity`: entropy of nonzero profile entries over `log2 21`. -/
noncomputable def vowelDiversityOf (r : AnalysisResult) : ℝ :=
  let jungEntropy := shannonEntropy (((jungProfileOf r).map Prod.snd).filter (fun v => 0 < v))
  let maxJungEntropy := Real.logb 2 ((JUNGSEONG.length : Nat) : ℝ)
  if 0 < maxJungEntropy then jungEntropy / maxJungEntropy else 0

/-- `round(n, digits)` on exact rationals: JavaScript `Math.round` is
`floor(x + 1/2)`. -/
def jsRoundQ (digits : Nat) (q : ℚ) : ℚ :=
  ((⌊q * 10 ^ digits + 1 / 2⌋ : ℤ) : ℚ) / 10 ^ digits

/-- `round(n, digits)` on reals. -/
noncomputable def jsRoundR (digits : Nat) (x : ℝ) : ℝ :=
  ((⌊x * 10 ^ digits + 1 / 2⌋ : ℤ) : ℝ) / 10 ^ digits

/-- The value returned by `fingerprint`. -/
structure Fingerprint where
  totalSyllables : Nat
  brightness : ℚ
  weight : ℚ
  rhythmRegularity : ℝ
  avgLineLength : ℚ
  consonantDiversity : ℝ
  vowelDiversity : ℝ
  choProfile : List (String × ℚ)
  jungProfile : List (String × ℚ)
  topCho : List String
  topJung : List String

/-- `fingerprint(text)`. -/
noncomputable def fingerprint (text : List Nat) : Option Fingerprint :=
  let result := analyze text
  if result.totalSyllables = 0 then none
  else some
    { totalSyllables := result.totalSyllables
      brightness := jsRoundQ 3 (brightnessOf result)
      weight := jsRoundQ 3 result.ratioJong
      rhythmRegularity := jsRoundR 3 (rhythmRegularityOf text)
      avgLineLength := jsRoundQ 1 (avgLineLength text)
      consonantDiversity := jsRoundR 3 (consonantDiversityOf result)
      vowelDiversity := jsRoundR 3 (vowelDiversityOf result)
      choProfile := choProfileOf result
      jungProfile := jungProfileOf result
      topCho := (result.choFreq.take 3).map Prod.fst
      topJung := (result.jungFreq.take 3).map Prod.fst }

/-! ## Comparison (`compare`) -/

/-- `cosineSimilarity(a, b)`; the loop runs over the indices of `a`. -/
noncomputable def cosineSimilarity (a b : List ℝ) : ℝ :=
  let dot := (List.zipWith (fun x y => x * y) a (b.take a.length)).sum
  let magA := (a.map (fun x => x ^ 2)).sum
  let magB := ((b.take a.length).map (fun x => x ^ 2)).sum
  let denom := Real.sqrt magA * Real.sqrt magB
  if denom = 0 then 0 else dot / denom

/-- The feature vector built by `compare` from one fingerprint: full initial
profile, full medial profile, then brightness, weight, rhythm regularity. -/
noncomputable def vecOf (fp : Fingerprint) : List ℝ :=
  (CHOSEONG.map (fun c => ((profLookup fp.choProfile c : ℚ) : ℝ))) ++
  (JUNGSEONG.map (fun v => ((profLookup fp.jungProfile v : ℚ) : ℝ))) ++
  [((fp.brightness : ℚ) : ℝ), ((fp.weight : ℚ) : ℝ), fp.rhythmRegularity]

/-- `compare(textA, textB)`. -/
noncomputable def compare (textA textB : List Nat) : Option ℝ :=
  match fingerprint textA, fingerprint textB with
  | some fpA, some fpB => some (jsRoundR 4 (cosineSimilarity (vecOf fpA) (vecOf fpB)))
  | _, _ => none

/-! ## Bounds on the fingerprint components -/

lemma jsRoundQ_mono (d : Nat) {a b : ℚ} (h : a ≤ b) : jsRoundQ d a ≤ jsRoundQ d b := by
  unfold jsRoundQ
  have h10 : (0 : ℚ) < 10 ^ d := by positivity
  refine div_le_div_of_nonneg_right ?_ h10.le
  exact_mod_cast Int.floor_mono (by nlinarith)

lemma jsRoundR_mono (d : Nat) {x y : ℝ} (h : x ≤ y) : jsRoundR d x ≤ jsRoundR d y := by
  unfold jsRoundR
  have h10 : (0 : ℝ) < 10 ^ d := by positivity
  refine div_le_div_of_nonneg_right ?_ h10.le
  exact_mod_cast Int.floor_mono (by nlinarith)

lemma jsRoundR_zero (d : Nat) : jsRoundR d 0 = 0 := by
  unfold jsRoundR
  have h1 : ⌊(0 : ℝ) * 10 ^ d + 1 / 2⌋ = 0 := by
    rw [zero_mul, zero_add]
    rw [Int.floor_eq_iff]
    norm_num
  rw [h1]
  norm_num

lemma jsRoundR_one (d : Nat) : jsRoundR d 1 = 1 := by
  unfold jsRoundR
  have h10 : (0 : ℝ) < 10 ^ d := by positivity
  have h1 : ⌊(1 : ℝ) * 10 ^ d + 1 / 2⌋ = (10 ^ d : ℤ) := by
    rw [Int.floor_eq_iff]
    constructor
    · push_cast
      linarith
    · push_cast
      linarith
  rw [h1]
  push_cast
  field_simp

lemma rhythmRegularityOf_bounds (t : List Nat) :
    0 ≤ rhythmRegularityOf t ∧ rhythmRegularityOf t ≤ 1 := by
  unfold rhythmRegularityOf
  split
  · rename_i hpos
    have havg : (0 : ℝ) < ((avgLineLength t : ℚ) : ℝ) := by
      exact_mod_cast hpos
    have hx : (0 : ℝ) ≤ Real.sqrt ((lineVariance t : ℚ) : ℝ) / ((avgLineLength t : ℚ) : ℝ) :=
      div_nonneg (Real.sqrt_nonneg _) havg.le
    have hmin1 : min 1 (Real.sqrt ((lineVariance t : ℚ) : ℝ) / ((avgLineLength t : ℚ) : ℝ)) ≤ 1 :=
      min_le_left _ _
    have hmin0 : (0 : ℝ) ≤ min 1 (Real.sqrt ((lineVariance t : ℚ) : ℝ) / ((avgLineLength t : ℚ) : ℝ)) :=
      le_min (by norm_num) hx
    constructor
    · linarith
    · linarith
  · norm_num

lemma brightnessOf_bounds (r : AnalysisResult) :
    -1 ≤ brightnessOf r ∧ brightnessOf r ≤ 1 := by
  unfold brightnessOf
  by_cases h : r.vowelHarmony.bright + r.vowelHarmony.dark = 0
  · have hb : r.vowelHarmony.bright = 0 := by omega
    have hd : r.vowelHarmony.dark = 0 := by omega
    rw [if_pos h, hb, hd]
    norm_num
  · rw [if_neg h]
    have hpos : (0 : ℚ) < ((r.vowelHarmony.bright + r.vowelHarmony.dark : Nat) : ℚ) := by
      exact_mod_cast Nat.pos_of_ne_zero h
    have hbn : (0 : ℚ) ≤ (r.vowelHarmony.bright : ℚ) := Nat.cast_nonneg _
    have hdn : (0 : ℚ) ≤ (r.vowelHarmony.dark : ℚ) := Nat.cast_nonneg _
    constructor
    · rw [le_div_iff₀ hpos]
      push_cast
      nlinarith
    · rw [div_le_one hpos]
      push_cast
      nlinarith

lemma ratioJong_bounds (t : List Nat) :
    0 ≤ (analyze t).ratioJong ∧ (analyze t).ratioJong ≤ 1 := by
  have hle := (analyzeState_counts t).1
  have hr : (analyze t).ratioJong =
      (if (analyzeState t).totalSyllables = 0 then 0
       else ((analyzeState t).withJong : ℚ) / ((analyzeState t).totalSyllables : ℚ)) := rfl
  rw [hr]
  split
  · norm_num
  · rename_i h
    have hpos : (0 : ℚ) < ((analyzeState t).totalSyllables : ℚ) := by
      exact_mod_cast Nat.pos_of_ne_zero h
    constructor
    · positivity
    · rw [div_le_one hpos]
      exact_mod_cast hle

lemma list_sum_div_q (l : List ℚ) (c : ℚ) :
    (l.map (fun x => x / c)).sum = l.sum / c := by
  induction l with
  | nil => simp
  | cons a rest ih => simp [ih, add_div]

lemma list_sum_natCast_q (l : List Nat) :
    ((l.sum : Nat) : ℚ) = (l.map (fun n => (n : ℚ))).sum := by
  induction l with
  | nil => simp
  | cons a rest ih => simp [ih]

lemma filter_pos_sum (l : List ℚ) (h : ∀ p ∈ l, 0 ≤ p) :
    (l.filter (fun v => 0 < v)).sum = l.sum := by
  induction l with
  | nil => simp
  | cons a rest ih =>
    have ha := h a (List.mem_cons.mpr (Or.inl rfl))
    have hrest := fun p hp => h p (List.mem_cons.mpr (Or.inr hp))
    by_cases hpa : 0 < a
    · rw [List.filter_cons_of_pos (by simpa using hpa)]
      simp only [List.sum_cons, ih hrest]
    · have ha0 : a = 0 := le_antisymm (not_lt.mp hpa) ha
      rw [List.filter_cons_of_neg (by simpa using hpa)]
      simp only [List.sum_cons, ha0, zero_add, ih hrest]

lemma sum_nonpos_list (l : List ℝ) (h : ∀ x ∈ l, x ≤ 0) : l.sum ≤ 0 := by
  induction l with
  | nil => simp
  | cons a rest ih =>
    have ha := h a (List.mem_cons.mpr (Or.inl rfl))
    have hrest := ih fun x hx => h x (List.mem_cons.mpr (Or.inr hx))
    simp only [List.sum_cons]
    linarith

lemma shannonEntropy_nonneg (probs : List ℚ) (h1 : ∀ p ∈ probs, p ≤ 1) :
    0 ≤ shannonEntropy probs := by
  unfold shannonEntropy
  rw [neg_nonneg]
  refine sum_nonpos_list _ ?_
  intro x hx
  obtain ⟨p, hp, rfl⟩ := List.mem_map.mp hx
  by_cases hpp : 0 < p
  · rw [if_pos hpp]
    have hp1 : ((p : ℚ) : ℝ) ≤ 1 := by
      exact_mod_cast h1 p hp
    have hp0 : (0 : ℝ) < ((p : ℚ) : ℝ) := by
      exact_mod_cast hpp
    have hlog : Real.logb 2 ((p : ℚ) : ℝ) ≤ 0 :=
      Real.logb_nonpos (by norm_num) hp0.le hp1
    nlinarith
  · rw [if_neg hpp]

lemma gibbs_aux (n : Nat) (hn : 0 < n) :
    ∀ probs : List ℚ, (∀ p ∈ probs, 0 < p) →
      (probs.map (fun p => -(((p : ℚ) : ℝ) * Real.log ((p : ℚ) : ℝ)))).sum
        ≤ ((probs.sum : ℚ) : ℝ) * Real.log n
          + (probs.length : ℝ) * (1 / (n : ℝ)) - ((probs.sum : ℚ) : ℝ) := by
  intro probs
  induction probs with
  | nil => simp
  | cons p l ih =>
    intro hpos
    have hp : (0 : ℝ) < ((p : ℚ) : ℝ) := by
      exact_mod_cast hpos p (List.mem_cons.mpr (Or.inl rfl))
    have hrest := ih fun q hq => hpos q (List.mem_cons.mpr (Or.inr hq))
    have hnR : (0 : ℝ) < (n : ℝ) := by exact_mod_cast hn
    have hterm : -(((p : ℚ) : ℝ) * Real.log ((p : ℚ) : ℝ))
        ≤ ((p : ℚ) : ℝ) * Real.log n + 1 / (n : ℝ) - ((p : ℚ) : ℝ) := by
      have hpn : (0 : ℝ) < 1 / (((p : ℚ) : ℝ) * (n : ℝ)) := by positivity
      have hlog := Real.log_le_sub_one_of_pos hpn
      have hlogeq : Real.log (1 / (((p : ℚ) : ℝ) * (n : ℝ)))
          = -(Real.log ((p : ℚ) : ℝ)) - Real.log n := by
        rw [one_div, Real.log_inv, Real.log_mul (ne_of_gt hp) (ne_of_gt hnR)]
        ring
      rw [hlogeq] at hlog
      have hmul := mul_le_mul_of_nonneg_left hlog hp.le
      have hsimp : ((p : ℚ) : ℝ) * (1 / (((p : ℚ) : ℝ) * (n : ℝ)) - 1)
          = 1 / (n : ℝ) - ((p : ℚ) : ℝ) := by
        field_simp
        ring
      rw [hsimp] at hmul
      nlinarith
    simp only [List.map_cons, List.sum_cons, List.length_cons, List.sum_cons]
    push_cast
    push_cast at hrest
    nlinarith

lemma list_sum_div_r (l : List ℝ) (c : ℝ) :
    (l.map (fun x => x / c)).sum = l.sum / c := by
  induction l with
  | nil => simp
  | cons a rest ih => simp [ih, add_div]

lemma list_sum_neg (l : List ℝ) : -(l.sum) = (l.map (fun x => -x)).sum := by
  induction l with
  | nil => simp
  | cons a rest ih =>
    simp only [List.sum_cons, List.map_cons, neg_add, ih]

lemma shannonEntropy_le (probs : List ℚ) (n : Nat) (hn : 0 < n)
    (hlen : probs.length ≤ n) (hpos : ∀ p ∈ probs, 0 < p) (hsum : probs.sum = 1) :
    shannonEntropy probs ≤ Real.logb 2 (n : ℝ) := by
  unfold shannonEntropy
  have hlog2 : (0 : ℝ) < Real.log 2 := Real.log_pos (by norm_num)
  have hmapeq : (probs.map (fun p =>
      if 0 < p then ((p : ℚ) : ℝ) * Real.logb 2 ((p : ℚ) : ℝ) else 0))
      = probs.map (fun p => (((p : ℚ) : ℝ) * Real.log ((p : ℚ) : ℝ)) / Real.log 2) := by
    refine List.map_congr_left ?_
    intro p hp
    rw [if_pos (hpos p hp)]
    rw [Real.logb]
    ring
  rw [hmapeq]
  have hdiv : (probs.map (fun p => (((p : ℚ) : ℝ) * Real.log ((p : ℚ) : ℝ)) / Real.log 2)).sum
      = (probs.map (fun p => ((p : ℚ) : ℝ) * Real.log ((p : ℚ) : ℝ))).sum / Real.log 2 := by
    have h := list_sum_div_r
      (probs.map (fun p => ((p : ℚ) : ℝ) * Real.log ((p : ℚ) : ℝ))) (Real.log 2)
    rw [List.map_map] at h
    simpa [Function.comp] using h
  rw [hdiv, Real.logb, ← neg_div]
  rw [div_le_div_iff_of_pos_right hlog2]
  rw [list_sum_neg]
  have hneg : (probs.map (fun p => ((p : ℚ) : ℝ) * Real.log ((p : ℚ) : ℝ))).map (fun x => -x)
      = probs.map (fun p => -(((p : ℚ) : ℝ) * Real.log ((p : ℚ) : ℝ))) := by
    rw [List.map_map]
    rfl
  rw [hneg]
  have hg := gibbs_aux n hn probs hpos
  have hsumR : ((probs.sum : ℚ) : ℝ) = 1 := by
    rw [hsum]
    norm_num
  rw [hsumR] at hg
  have hlenR : (probs.length : ℝ) * (1 / (n : ℝ)) ≤ 1 := by
    rw [mul_one_div]
    rw [div_le_one (by exact_mod_cast hn)]
    exact_mod_cast hlen
  calc (probs.map (fun p => -(((p : ℚ) : ℝ) * Real.log ((p : ℚ) : ℝ)))).sum
      ≤ 1 * Real.log n + (probs.length : ℝ) * (1 / (n : ℝ)) - 1 := hg
    _ ≤ Real.log n := by linarith

lemma analyze_freq_facts (t : List Nat) :
    ((CHOSEONG.map (freqLookup (analyze t).choFreq)).sum = (analyze t).totalSyllables) ∧
    ((JUNGSEONG.map (freqLookup (analyze t).jungFreq)).sum = (analyze t).totalSyllables) := by
  obtain ⟨⟨hc1, hc2, hc3⟩, ⟨hj1, hj2, hj3⟩⟩ := analyzeState_freq_sums t
  have htot : (analyze t).totalSyllables = (analyzeState t).totalSyllables := rfl
  have hpc : List.Perm (analyze t).choFreq (analyzeState t).choFreq := by
    have h : (analyze t).choFreq = sortByValue (analyzeState t).choFreq := rfl
    rw [h]
    exact sortByWDesc_perm _ _
  have hpj : List.Perm (analyze t).jungFreq (analyzeState t).jungFreq := by
    have h : (analyze t).jungFreq = sortByValue (analyzeState t).jungFreq := rfl
    rw [h]
    exact sortByWDesc_perm _ _
  have hndc : ((analyze t).choFreq.map Prod.fst).Nodup :=
    ((hpc.map Prod.fst).nodup_iff).mpr hc2
  have hndj : ((analyze t).jungFreq.map Prod.fst).Nodup :=
    ((hpj.map Prod.fst).nodup_iff).mpr hj2
  constructor
  · rw [sum_lookup_over_table (analyze t).choFreq CHOSEONG hndc (by decide) ?_]
    · have : sumCounts (analyze t).choFreq = sumCounts (analyzeState t).choFreq :=
        (hpc.map Prod.snd).sum_eq
      rw [this, hc1, htot]
    · intro k hk
      exact hc3 k ((hpc.map Prod.fst).mem_iff.mp hk)
  · rw [sum_lookup_over_table (analyze t).jungFreq JUNGSEONG hndj (by decide) ?_]
    · have : sumCounts (analyze t).jungFreq = sumCounts (analyzeState t).jungFreq :=
        (hpj.map Prod.snd).sum_eq
      rw [this, hj1, htot]
    · intro k hk
      exact hj3 k ((hpj.map Prod.fst).mem_iff.mp hk)

lemma list_sum_cast_comp {α : Type} (l : List α) (f : α → Nat) :
    (l.map (fun x => ((f x : Nat) : ℚ))).sum = (((l.map f).sum : Nat) : ℚ) := by
  induction l with
  | nil => simp
  | cons a rest ih => simp [ih]

lemma profile_facts (freq : List (String × Nat)) (table : List String) (total : Nat)
    (hsum : (table.map (freqLookup freq)).sum = total) (htot : total ≠ 0) :
    (∀ p ∈ (table.map (fun c => (freqLookup freq c : ℚ) / (total : ℚ))).filter
        (fun v => 0 < v), 0 < p ∧ p ≤ 1) ∧
    ((table.map (fun c => (freqLookup freq c : ℚ) / (total : ℚ))).filter
        (fun v => 0 < v)).sum = 1 ∧
    ((table.map (fun c => (freqLookup freq c : ℚ) / (total : ℚ))).filter
        (fun v => 0 < v)).length ≤ table.length := by
  have htotQ : (0 : ℚ) < (total : ℚ) := by
    exact_mod_cast Nat.pos_of_ne_zero htot
  refine ⟨?_, ?_, ?_⟩
  · intro p hp
    have hpf := List.mem_filter.mp hp
    have hppos : 0 < p := by simpa using hpf.2
    refine ⟨hppos, ?_⟩
    obtain ⟨c, hc, rfl⟩ := List.mem_map.mp hpf.1
    rw [div_le_one htotQ]
    have hmem : freqLookup freq c ∈ table.map (freqLookup freq) :=
      List.mem_map.mpr ⟨c, hc, rfl⟩
    have hle := nat_mem_le_sum _ _ hmem
    rw [hsum] at hle
    exact_mod_cast hle
  · rw [filter_pos_sum]
    · have h1 : (table.map (fun c => (freqLookup freq c : ℚ) / (total : ℚ))).sum
          = ((table.map (fun c => (freqLookup freq c : ℚ))).map
              (fun x => x / (total : ℚ))).sum := by
        rw [List.map_map]
        rfl
      rw [h1, list_sum_div_q, list_sum_cast_comp, hsum]
      field_simp
    · intro p hp
      obtain ⟨c, hc, rfl⟩ := List.mem_map.mp hp
      positivity
  · refine le_trans (List.length_filter_le _ _) ?_
    rw [List.length_map]

lemma consonantDiversityOf_bounds (t : List Nat)
    (htot : (analyze t).totalSyllables ≠ 0) :
    0 ≤ consonantDiversityOf (analyze t) ∧ consonantDiversityOf (analyze t) ≤ 1 := by
  have hprobs : ((choProfileOf (analyze t)).map Prod.snd)
      = CHOSEONG.map (fun c =>
          (freqLookup (analyze t).choFreq c : ℚ) / ((analyze t).totalSyllables : ℚ)) := by
    unfold choProfileOf
    rw [List.map_map]
    rfl
  have hfacts := profile_facts (analyze t).choFreq CHOSEONG (analyze t).totalSyllables
    (analyze_freq_facts t).1 htot
  rw [← hprobs] at hfacts
  have hform : consonantDiversityOf (analyze t)
      = (if 0 < Real.logb 2 ((CHOSEONG.length : Nat) : ℝ)
         then shannonEntropy (((choProfileOf (analyze t)).map Prod.snd).filter
           (fun v => 0 < v)) / Real.logb 2 ((CHOSEONG.length : Nat) : ℝ)
         else 0) := rfl
  have hlen19 : ((CHOSEONG.length : Nat) : ℝ) = ((19 : Nat) : ℝ) := by norm_num [CHOSEONG]
  have hmax : (0 : ℝ) < Real.logb 2 ((CHOSEONG.length : Nat) : ℝ) := by
    rw [hlen19]
    exact Real.logb_pos (by norm_num) (by norm_num)
  rw [hform, if_pos hmax]
  have hent0 : 0 ≤ shannonEntropy (((choProfileOf (analyze t)).map Prod.snd).filter
      (fun v => 0 < v)) :=
    shannonEntropy_nonneg _ (fun p hp => (hfacts.1 p hp).2)
  have hentle : shannonEntropy (((choProfileOf (analyze t)).map Prod.snd).filter
      (fun v => 0 < v)) ≤ Real.logb 2 ((CHOSEONG.length : Nat) : ℝ) := by
    rw [hlen19]
    refine shannonEntropy_le _ 19 (by norm_num) ?_ (fun p hp => (hfacts.1 p hp).1) hfacts.2.1
    have h19 : CHOSEONG.length = 19 := by decide
    rw [← h19]
    exact hfacts.2.2
  exact ⟨div_nonneg hent0 hmax.le, (div_le_one hmax).mpr hentle⟩

lemma vowelDiversityOf_bounds (t : List Nat)
    (htot : (analyze t).totalSyllables ≠ 0) :
    0 ≤ vowelDiversityOf (analyze t) ∧ vowelDiversityOf (analyze t) ≤ 1 := by
  have hprobs : ((jungProfileOf (analyze t)).map Prod.snd)
      = JUNGSEONG.map (fun v =>
          (freqLookup (analyze t).jungFreq v : ℚ) / ((analyze t).totalSyllables : ℚ)) := by
    unfold jungProfileOf
    rw [List.map_map]
    rfl
  have hfacts := profile_facts (analyze t).jungFreq JUNGSEONG (analyze t).totalSyllables
    (analyze_freq_facts t).2 htot
  rw [← hprobs] at hfacts
  have hform : vowelDiversityOf (analyze t)
      = (if 0 < Real.logb 2 ((JUNGSEONG.length : Nat) : ℝ)
         then shannonEntropy (((jungProfileOf (analyze t)).map Prod.snd).filter
           (fun v => 0 < v)) / Real.logb 2 ((JUNGSEONG.length : Nat) : ℝ)
         else 0) := rfl
  have hlen21 : ((JUNGSEONG.length : Nat) : ℝ) = ((21 : Nat) : ℝ) := by norm_num [JUNGSEONG]
  have hmax : (0 : ℝ) < Real.logb 2 ((JUNGSEONG.length : Nat) : ℝ) := by
    rw [hlen21]
    exact Real.logb_pos (by norm_num) (by norm_num)
  rw [hform, if_pos hmax]
  have hent0 : 0 ≤ shannonEntropy (((jungProfileOf (analyze t)).map Prod.snd).filter
      (fun v => 0 < v)) :=
    shannonEntropy_nonneg _ (fun p hp => (hfacts.1 p hp).2)
  have hentle : shannonEntropy (((jungProfileOf (analyze t)).map Prod.snd).filter
      (fun v => 0 < v)) ≤ Real.logb 2 ((JUNGSEONG.length : Nat) : ℝ) := by
    rw [hlen21]
    refine shannonEntropy_le _ 21 (by norm_num) ?_ (fun p hp => (hfacts.1 p hp).1) hfacts.2.1
    have h21 : JUNGSEONG.length = 21 := by decide
    rw [← h21]
    exact hfacts.2.2
  exact ⟨div_nonneg hent0 hmax.le, (div_le_one hmax).mpr hentle⟩

/-- C5: `fingerprint` returns absent exactly when the text has no decomposable
syllable, and every returned fingerprint has `brightness ∈ [-1, 1]` and
`weight`, `rhythmRegularity`, `consonantDiversity`, `vowelDiversity`
all in `[0, 1]`. -/
theorem fingerprint_bounds (t : List Nat) :
    (fingerprint t = none ↔ t.filterMap decompose = []) ∧
    (∀ fp, fingerprint t = some fp →
      -1 ≤ fp.brightness ∧ fp.brightness ≤ 1 ∧
      0 ≤ fp.weight ∧ fp.weight ≤ 1 ∧
      0 ≤ fp.rhythmRegularity ∧ fp.rhythmRegularity ≤ 1 ∧
      0 ≤ fp.consonantDiversity ∧ fp.consonantDiversity ≤ 1 ∧
      0 ≤ fp.vowelDiversity ∧ fp.vowelDiversity ≤ 1) := by
  have hlen : (analyze t).totalSyllables = (t.filterMap decompose).length := by
    have h1 : (analyze t).totalSyllables = (analyzeState t).totalSyllables := rfl
    rw [h1, analyzeState_total_eq_length, analyzeState_syllables]
  constructor
  · by_cases h : (analyze t).totalSyllables = 0
    · have hnone : fingerprint t = none := by
        unfold fingerprint
        rw [if_pos h]
      rw [hnone]
      rw [h] at hlen
      simp only [true_iff]
      exact List.length_eq_zero.mp hlen.symm
    · have hsome : fingerprint t ≠ none := by
        unfold fingerprint
        rw [if_neg h]
        simp
      constructor
      · intro hcon
        exact absurd hcon hsome
      · intro hcon
        rw [hcon] at hlen
        simp at hlen
        exact absurd hlen h
  · intro fp hfp
    by_cases h : (analyze t).totalSyllables = 0
    · exfalso
      unfold fingerprint at hfp
      rw [if_pos h] at hfp
      exact Option.noConfusion hfp
    · unfold fingerprint at hfp
      rw [if_neg h] at hfp
      have hfp2 := Option.some_inj.mp hfp
      subst hfp2
      dsimp only
      have hb := brightnessOf_bounds (analyze t)
      have hw := ratioJong_bounds t
      have hr := rhythmRegularityOf_bounds t
      have hcd := consonantDiversityOf_bounds t h
      have hvd := vowelDiversityOf_bounds t h
      have e1 : jsRoundQ 3 (-1 : ℚ) = -1 := by
        unfold jsRoundQ
        have hf : ⌊(-1 : ℚ) * 10 ^ 3 + 1 / 2⌋ = -1000 := by
          rw [Int.floor_eq_iff]
          norm_num
        rw [hf]
        norm_num
      have e2 : jsRoundQ 3 (1 : ℚ) = 1 := by
        unfold jsRoundQ
        have hf : ⌊(1 : ℚ) * 10 ^ 3 + 1 / 2⌋ = 1000 := by
          rw [Int.floor_eq_iff]
          norm_num
        rw [hf]
        norm_num
      have e3 : jsRoundQ 3 (0 : ℚ) = 0 := by
        unfold jsRoundQ
        have hf : ⌊(0 : ℚ) * 10 ^ 3 + 1 / 2⌋ = 0 := by
          rw [Int.floor_eq_iff]
          norm_num
        rw [hf]
        norm_num
      refine ⟨?_, ?_, ?_, ?_, ?_, ?_, ?_, ?_, ?_, ?_⟩
      · rw [← e1]
        exact jsRoundQ_mono 3 hb.1
      · rw [← e2]
        exact jsRoundQ_mono 3 hb.2
      · rw [← e3]
        exact jsRoundQ_mono 3 hw.1
      · rw [← e2]
        exact jsRoundQ_mono 3 hw.2
      · rw [← jsRoundR_zero 3]
        exact jsRoundR_mono 3 hr.1
      · rw [← jsRoundR_one 3]
        exact jsRoundR_mono 3 hr.2
      · rw [← jsRoundR_zero 3]
        exact jsRoundR_mono 3 hcd.1
      · rw [← jsRoundR_one 3]
        exact jsRoundR_mono 3 hcd.2
      · rw [← jsRoundR_zero 3]
        exact jsRoundR_mono 3 hvd.1
      · rw [← jsRoundR_one 3]
        exact jsRoundR_mono 3 hvd.2

/-! ## Cosine similarity of a fingerprint with itself -/

lemma zipWith_mul_self (v : List ℝ) :
    List.zipWith (fun x y => x * y) v v = v.map (fun x => x ^ 2) := by
  induction v with
  | nil => simp
  | cons a rest ih =>
    simp only [List.zipWith_cons_cons, List.map_cons, ih, sq]

lemma fingerprint_fields (t : List Nat) (fp : Fingerprint)
    (h : fingerprint t = some fp) :
    fp.totalSyllables = (analyze t).totalSyllables ∧
    fp.brightness = jsRoundQ 3 (brightnessOf (analyze t)) ∧
    fp.weight = jsRoundQ 3 (analyze t).ratioJong ∧
    fp.rhythmRegularity = jsRoundR 3 (rhythmRegularityOf t) ∧
    fp.choProfile = choProfileOf (analyze t) ∧
    fp.jungProfile = jungProfileOf (analyze t) := by
  unfold fingerprint at h
  by_cases htot : (analyze t).totalSyllables = 0
  · rw [if_pos htot] at h
    exact absurd h (by simp)
  · rw [if_neg htot] at h
    have h2 := Option.some_inj.mp h
    subst h2
    exact ⟨rfl, rfl, rfl, rfl, rfl, rfl⟩

lemma profLookup_tableMap (table : List String) (f : String → ℚ) (k : String)
    (hk : k ∈ table) :
    profLookup (table.map (fun c => (c, f c))) k = f k := by
  induction table with
  | nil => simp at hk
  | cons t ts ih =>
    simp only [List.map_cons, profLookup]
    by_cases h : t = k
    · subst h
      rw [if_pos rfl]
    · rw [if_neg h]
      exact ih (by
        rcases List.mem_cons.mp hk with rfl | h2
        · exact absurd rfl h
        · exact h2)

lemma exists_pos_entry (freq : List (String × Nat)) (table : List String) (total : Nat)
    (hsum : (table.map (freqLookup freq)).sum = total) (htot : total ≠ 0) :
    ∃ c ∈ table, 0 < freqLookup freq c := by
  by_contra hcon
  push_neg at hcon
  have hz : (table.map (freqLookup freq)).sum = 0 := by
    refine map_sum_zero table _ ?_
    intro c hc
    have := hcon c hc
    omega
  rw [hsum] at hz
  exact htot hz

lemma sq_sum_pos (v : List ℝ) (x : ℝ) (hx : x ∈ v) (hx0 : x ≠ 0) :
    0 < (v.map (fun y => y ^ 2)).sum := by
  have hmem : x ^ 2 ∈ v.map (fun y => y ^ 2) := List.mem_map.mpr ⟨x, hx, rfl⟩
  have hnn : ∀ y ∈ v.map (fun y => y ^ 2), (0 : ℝ) ≤ y := by
    intro y hy
    obtain ⟨z, _, rfl⟩ := List.mem_map.mp hy
    positivity
  have hle : x ^ 2 ≤ (v.map (fun y => y ^ 2)).sum :=
    List.single_le_sum hnn _ hmem
  have hxp : 0 < x ^ 2 := by positivity
  linarith

lemma cosineSimilarity_self (v : List ℝ) (h : 0 < (v.map (fun x => x ^ 2)).sum) :
    cosineSimilarity v v = 1 := by
  unfold cosineSimilarity
  rw [List.take_length, zipWith_mul_self]
  have hdenom : Real.sqrt ((v.map (fun x => x ^ 2)).sum)
      * Real.sqrt ((v.map (fun x => x ^ 2)).sum) = (v.map (fun x => x ^ 2)).sum :=
    Real.mul_self_sqrt h.le
  show (if Real.sqrt ((v.map (fun x => x ^ 2)).sum)
        * Real.sqrt ((v.map (fun x => x ^ 2)).sum) = 0 then (0 : ℝ)
      else (v.map (fun x => x ^ 2)).sum
        / (Real.sqrt ((v.map (fun x => x ^ 2)).sum)
          * Real.sqrt ((v.map (fun x => x ^ 2)).sum))) = 1
  rw [hdenom, if_neg (ne_of_gt h)]
  exact div_self (ne_of_gt h)

/-- C6: for every text with at least one decomposable syllable,
`compare(T, T)` returns exactly 1 (after rounding to 4 decimals). -/
theorem compare_self (t : List Nat) (h : (analyze t).totalSyllables ≠ 0) :
    compare t t = some (1 : ℝ) := by
  obtain ⟨fp, hfp⟩ : ∃ fp, fingerprint t = some fp := by
    unfold fingerprint
    rw [if_neg h]
    exact ⟨_, rfl⟩
  obtain ⟨-, -, -, -, hcp, -⟩ := fingerprint_fields t fp hfp
  unfold compare
  rw [hfp]
  show some (jsRoundR 4 (cosineSimilarity (vecOf fp) (vecOf fp))) = some 1
  obtain ⟨c0, hc0mem, hc0pos⟩ := exists_pos_entry (analyze t).choFreq CHOSEONG
    (analyze t).totalSyllables (analyze_freq_facts t).1 h
  have hentry : ((profLookup fp.choProfile c0 : ℚ) : ℝ) ∈ vecOf fp := by
    unfold vecOf
    refine List.mem_append.mpr (Or.inl (List.mem_append.mpr (Or.inl ?_)))
    exact List.mem_map.mpr ⟨c0, hc0mem, rfl⟩
  have hval : profLookup fp.choProfile c0
      = (freqLookup (analyze t).choFreq c0 : ℚ) / ((analyze t).totalSyllables : ℚ) := by
    rw [hcp]
    unfold choProfileOf
    exact profLookup_tableMap CHOSEONG _ c0 hc0mem
  have hne : ((profLookup fp.choProfile c0 : ℚ) : ℝ) ≠ 0 := by
    rw [hval]
    have htotpos : (0 : ℚ) < ((analyze t).totalSyllables : ℚ) := by
      exact_mod_cast Nat.pos_of_ne_zero h
    have hnum : (0 : ℚ) < (freqLookup (analyze t).choFreq c0 : ℚ) := by
      exact_mod_cast hc0pos
    have : (0 : ℚ) < (freqLookup (analyze t).choFreq c0 : ℚ)
        / ((analyze t).totalSyllables : ℚ) := div_pos hnum htotpos
    exact_mod_cast this.ne'
  have hpos := sq_sum_pos (vecOf fp) _ hentry hne
  rw [cosineSimilarity_self (vecOf fp) hpos, jsRoundR_one]

/-- C6 witness at the single-syllable text `'가'`. -/
theorem compare_self_witness :
    (analyze [0xAC00]).totalSyllables ≠ 0 ∧ compare [0xAC00] [0xAC00] = some (1 : ℝ) :=
  ⟨by decide, compare_self [0xAC00] (by decide)⟩

/-- C5 witness: the single-syllable text `'가'` has a decomposable syllable,
so its fingerprint is present and all its bounded components satisfy the
bounds. -/
theorem fingerprint_bounds_witness :
    ([0xAC00] : List Nat).filterMap decompose ≠ [] ∧
    ∃ fp, fingerprint [0xAC00] = some fp ∧
      (-1 ≤ fp.brightness ∧ fp.brightness ≤ 1 ∧
       0 ≤ fp.weight ∧ fp.weight ≤ 1 ∧
       0 ≤ fp.rhythmRegularity ∧ fp.rhythmRegularity ≤ 1 ∧
       0 ≤ fp.consonantDiversity ∧ fp.consonantDiversity ≤ 1 ∧
       0 ≤ fp.vowelDiversity ∧ fp.vowelDiversity ≤ 1) := by
  have hne : fingerprint [0xAC00] ≠ none := by
    intro hnone
    have hiff := (fingerprint_bounds [0xAC00]).1
    have hcon := hiff.mp hnone
    exact (by decide : ([0xAC00] : List Nat).filterMap decompose ≠ []) hcon
  obtain ⟨fp, hfp⟩ := Option.ne_none_iff_exists'.mp hne
  exact ⟨by decide, fp, hfp, (fingerprint_bounds [0xAC00]).2 fp hfp⟩


/-! ## A comparison with a strictly negative result -/

lemma vec_cho_eval (t : List Nat) (fp : Fingerprint) (h : fingerprint t = some fp) :
    CHOSEONG.map (fun c => ((profLookup fp.choProfile c : ℚ) : ℝ))
      = (CHOSEONG.map (freqLookup (analyze t).choFreq)).map
          (fun n : Nat => ((((n : ℚ) / ((analyze t).totalSyllables : ℚ)) : ℚ) : ℝ)) := by
  obtain ⟨-, -, -, -, hcp, -⟩ := fingerprint_fields t fp h
  rw [List.map_map]
  refine List.map_congr_left ?_
  intro c hc
  simp only [Function.comp]
  rw [hcp]
  unfold choProfileOf
  rw [profLookup_tableMap CHOSEONG _ c hc]

lemma vec_jung_eval (t : List Nat) (fp : Fingerprint) (h : fingerprint t = some fp) :
    JUNGSEONG.map (fun v => ((profLookup fp.jungProfile v : ℚ) : ℝ))
      = (JUNGSEONG.map (freqLookup (analyze t).jungFreq)).map
          (fun n : Nat => ((((n : ℚ) / ((analyze t).totalSyllables : ℚ)) : ℚ) : ℝ)) := by
  obtain ⟨-, -, -, -, -, hjp⟩ := fingerprint_fields t fp h
  rw [List.map_map]
  refine List.map_congr_left ?_
  intro v hv
  simp only [Function.comp]
  rw [hjp]
  unfold jungProfileOf
  rw [profLookup_tableMap JUNGSEONG _ v hv]

lemma jsRoundQ_one (d : Nat) : jsRoundQ d 1 = 1 := by
  unfold jsRoundQ
  have h1 : ⌊(1 : ℚ) * 10 ^ d + 1 / 2⌋ = (10 ^ d : ℤ) := by
    rw [Int.floor_eq_iff]
    constructor
    · push_cast
      linarith
    · push_cast
      linarith
  rw [h1]
  push_cast
  field_simp

lemma jsRoundQ_zero (d : Nat) : jsRoundQ d 0 = 0 := by
  unfold jsRoundQ
  have h1 : ⌊(0 : ℚ) * 10 ^ d + 1 / 2⌋ = 0 := by
    rw [zero_mul, zero_add, Int.floor_eq_iff]
    norm_num
  rw [h1]
  norm_num

lemma jsRoundQ_negOne (d : Nat) : jsRoundQ d (-1) = -1 := by
  unfold jsRoundQ
  have hpow : (1 : ℚ) ≤ 10 ^ d := one_le_pow₀ (by norm_num)
  have h1 : ⌊(-1 : ℚ) * 10 ^ d + 1 / 2⌋ = -(10 ^ d : ℤ) := by
    rw [Int.floor_eq_iff]
    constructor
    · push_cast
      linarith
    · push_cast
      linarith
  rw [h1]
  push_cast
  field_simp

lemma jsRoundR_twoThirds : jsRoundR 3 ((2 : ℝ) / 3) = 667 / 1000 := by
  unfold jsRoundR
  have h1 : ⌊(2 : ℝ) / 3 * 10 ^ 3 + 1 / 2⌋ = 667 := by
    rw [Int.floor_eq_iff]
    norm_num
  rw [h1]
  norm_num

lemma cosineSimilarity_eq (a b : List ℝ) :
    cosineSimilarity a b =
      if Real.sqrt ((a.map (fun x => x ^ 2)).sum)
          * Real.sqrt (((b.take a.length).map (fun x => x ^ 2)).sum) = 0 then 0
      else (List.zipWith (fun x y => x * y) a (b.take a.length)).sum
        / (Real.sqrt ((a.map (fun x => x ^ 2)).sum)
          * Real.sqrt (((b.take a.length).map (fun x => x ^ 2)).sum)) := rfl

/-- C9: the comparison result is not confined to `[0, 1]`: on the texts
`가\n가가` (all bright vowels, rhythm regularity `0.667`) and `누` (all dark
vowels, rhythm regularity `1`), which share no initial and no medial symbol,
`compare` returns a strictly negative similarity. -/
theorem compare_negative_exists :
    ∃ x, compare [0xAC00, 10, 0xAC00, 0xAC00] [0xB204] = some x ∧ x < 0 := by
  have htotA : (analyze [0xAC00, 10, 0xAC00, 0xAC00]).totalSyllables = 3 := by decide
  have htotB : (analyze [0xB204]).totalSyllables = 1 := by decide
  obtain ⟨fpA, hfpA⟩ : ∃ fp, fingerprint [0xAC00, 10, 0xAC00, 0xAC00] = some fp := by
    unfold fingerprint
    rw [if_neg (by decide)]
    exact ⟨_, rfl⟩
  obtain ⟨fpB, hfpB⟩ : ∃ fp, fingerprint [0xB204] = some fp := by
    unfold fingerprint
    rw [if_neg (by decide)]
    exact ⟨_, rfl⟩
  obtain ⟨-, hbrA, hwA, hrrA, -, -⟩ := fingerprint_fields _ fpA hfpA
  obtain ⟨-, hbrB, hwB, hrrB, -, -⟩ := fingerprint_fields _ fpB hfpB
  have hbrA2 : fpA.brightness = 1 := by
    rw [hbrA]
    have hb : (analyze [0xAC00, 10, 0xAC00, 0xAC00]).vowelHarmony.bright = 3 := by decide
    have hd : (analyze [0xAC00, 10, 0xAC00, 0xAC00]).vowelHarmony.dark = 0 := by decide
    unfold brightnessOf
    rw [hb, hd]
    rw [show ((((3 : Nat) : ℚ)) - (((0 : Nat)) : ℚ)) /
        (if (3 : Nat) + (0 : Nat) = 0 then (1 : ℚ) else (((3 : Nat) + (0 : Nat) : Nat) : ℚ))
        = 1 by norm_num]
    exact jsRoundQ_one 3
  have hwA2 : fpA.weight = 0 := by
    rw [hwA]
    have hr : (analyze [0xAC00, 10, 0xAC00, 0xAC00]).ratioJong =
        (if (analyzeState [0xAC00, 10, 0xAC00, 0xAC00]).totalSyllables = 0 then (0 : ℚ)
         else ((analyzeState [0xAC00, 10, 0xAC00, 0xAC00]).withJong : ℚ)
           / ((analyzeState [0xAC00, 10, 0xAC00, 0xAC00]).totalSyllables : ℚ)) := rfl
    have ht : (analyzeState [0xAC00, 10, 0xAC00, 0xAC00]).totalSyllables = 3 := by decide
    have hwj : (analyzeState [0xAC00, 10, 0xAC00, 0xAC00]).withJong = 0 := by decide
    rw [hr, ht, hwj]
    rw [show (if (3 : Nat) = 0 then (0 : ℚ) else (((0 : Nat)) : ℚ) / (((3 : Nat)) : ℚ))
        = 0 by norm_num]
    exact jsRoundQ_zero 3
  have hllA : lineLengths [0xAC00, 10, 0xAC00, 0xAC00] = [1, 2] := by decide
  have havgA : avgLineLength [0xAC00, 10, 0xAC00, 0xAC00] = 3 / 2 := by
    unfold avgLineLength
    rw [hllA]
    norm_num
  have hvarA : lineVariance [0xAC00, 10, 0xAC00, 0xAC00] = 1 / 4 := by
    unfold lineVariance
    rw [hllA, havgA]
    norm_num
  have hrrValA : rhythmRegularityOf [0xAC00, 10, 0xAC00, 0xAC00] = 2 / 3 := by
    unfold rhythmRegularityOf
    rw [havgA, hvarA, if_pos (by norm_num)]
    rw [show (((1 / 4 : ℚ)) : ℝ) = (1 / 2 : ℝ) ^ 2 by norm_num]
    rw [Real.sqrt_sq (by norm_num : (0 : ℝ) ≤ 1 / 2)]
    rw [show (((3 / 2 : ℚ)) : ℝ) = (3 / 2 : ℝ) by norm_num]
    rw [show ((1 : ℝ) / 2) / ((3 : ℝ) / 2) = 1 / 3 by norm_num]
    rw [min_eq_right (by norm_num : (1 : ℝ) / 3 ≤ 1)]
    norm_num
  have hrrA2 : fpA.rhythmRegularity = 667 / 1000 := by
    rw [hrrA, hrrValA, jsRoundR_twoThirds]
  have hbrB2 : fpB.brightness = -1 := by
    rw [hbrB]
    have hb : (analyze [0xB204]).vowelHarmony.bright = 0 := by decide
    have hd : (analyze [0xB204]).vowelHarmony.dark = 1 := by decide
    unfold brightnessOf
    rw [hb, hd]
    rw [show ((((0 : Nat) : ℚ)) - (((1 : Nat)) : ℚ)) /
        (if (0 : Nat) + (1 : Nat) = 0 then (1 : ℚ) else (((0 : Nat) + (1 : Nat) : Nat) : ℚ))
        = -1 by norm_num]
    exact jsRoundQ_negOne 3
  have hwB2 : fpB.weight = 0 := by
    rw [hwB]
    have hr : (analyze [0xB204]).ratioJong =
        (if (analyzeState [0xB204]).totalSyllables = 0 then (0 : ℚ)
         else ((analyzeState [0xB204]).withJong : ℚ)
           / ((analyzeState [0xB204]).totalSyllables : ℚ)) := rfl
    have ht : (analyzeState [0xB204]).totalSyllables = 1 := by decide
    have hwj : (analyzeState [0xB204]).withJong = 0 := by decide
    rw [hr, ht, hwj]
    rw [show (if (1 : Nat) = 0 then (0 : ℚ) else (((0 : Nat)) : ℚ) / (((1 : Nat)) : ℚ))
        = 0 by norm_num]
    exact jsRoundQ_zero 3
  have hllB : lineLengths [0xB204] = [1] := by decide
  have havgB : avgLineLength [0xB204] = 1 := by
    unfold avgLineLength
    rw [hllB]
    norm_num
  have hvarB : lineVariance [0xB204] = 0 := by
    unfold lineVariance
    rw [hllB]
    norm_num
  have hrrValB : rhythmRegularityOf [0xB204] = 1 := by
    unfold rhythmRegularityOf
    rw [havgB, hvarB, if_pos (by norm_num)]
    rw [show (((0 : ℚ)) : ℝ) = (0 : ℝ) by norm_num]
    rw [Real.sqrt_zero]
    rw [show (((1 : ℚ)) : ℝ) = (1 : ℝ) by norm_num]
    rw [show (0 : ℝ) / 1 = 0 by norm_num]
    rw [min_eq_right (by norm_num : (0 : ℝ) ≤ 1)]
    norm_num
  have hrrB2 : fpB.rhythmRegularity = 1 := by
    rw [hrrB, hrrValB, jsRoundR_one]
  -- the two feature vectors, as explicit lists
  have hchoLA : CHOSEONG.map (freqLookup (analyze [0xAC00, 10, 0xAC00, 0xAC00]).choFreq) = [3, 0, 0, 0, 0, 0, 0, 0, 0, 0, 0, 0, 0, 0, 0, 0, 0, 0, 0] := by decide
  have hjungLA : JUNGSEONG.map (freqLookup (analyze [0xAC00, 10, 0xAC00, 0xAC00]).jungFreq) = [3, 0, 0, 0, 0, 0, 0, 0, 0, 0, 0, 0, 0, 0, 0, 0, 0, 0, 0, 0, 0] := by decide
  have hchoLB : CHOSEONG.map (freqLookup (analyze [0xB204]).choFreq) = [0, 0, 1, 0, 0, 0, 0, 0, 0, 0, 0, 0, 0, 0, 0, 0, 0, 0, 0] := by decide
  have hjungLB : JUNGSEONG.map (freqLookup (analyze [0xB204]).jungFreq) = [0, 0, 0, 0, 0, 0, 0, 0, 0, 0, 0, 0, 0, 1, 0, 0, 0, 0, 0, 0, 0] := by decide
  have hchoA := vec_cho_eval [0xAC00, 10, 0xAC00, 0xAC00] fpA hfpA
  rw [hchoLA, htotA] at hchoA
  norm_num at hchoA
  have hjungA := vec_jung_eval [0xAC00, 10, 0xAC00, 0xAC00] fpA hfpA
  rw [hjungLA, htotA] at hjungA
  norm_num at hjungA
  have hchoB := vec_cho_eval [0xB204] fpB hfpB
  rw [hchoLB, htotB] at hchoB
  norm_num at hchoB
  have hjungB := vec_jung_eval [0xB204] fpB hfpB
  rw [hjungLB, htotB] at hjungB
  norm_num at hjungB
  have hvecA : vecOf fpA = [(1 : ℝ), 0, 0, 0, 0, 0, 0, 0, 0, 0, 0, 0, 0, 0, 0, 0, 0, 0, 0, 1, 0, 0, 0, 0, 0, 0, 0, 0, 0, 0, 0, 0, 0, 0, 0, 0, 0, 0, 0, 0, 1, 0, 667 / 1000] := by
    unfold vecOf
    rw [hchoA, hjungA, hbrA2, hwA2, hrrA2]
    norm_num
  have hvecB : vecOf fpB = [(0 : ℝ), 0, 1, 0, 0, 0, 0, 0, 0, 0, 0, 0, 0, 0, 0, 0, 0, 0, 0, 0, 0, 0, 0, 0, 0, 0, 0, 0, 0, 0, 0, 0, 1, 0, 0, 0, 0, 0, 0, 0, -1, 0, 1] := by
    unfold vecOf
    rw [hchoB, hjungB, hbrB2, hwB2, hrrB2]
    norm_num
  refine ⟨jsRoundR 4 (cosineSimilarity (vecOf fpA) (vecOf fpB)), ?_, ?_⟩
  · unfold compare
    rw [hfpA, hfpB]
  · rw [hvecA, hvecB, cosineSimilarity_eq]
    have htake : ([(0 : ℝ), 0, 1, 0, 0, 0, 0, 0, 0, 0, 0, 0, 0, 0, 0, 0, 0, 0, 0, 0, 0, 0, 0, 0, 0, 0, 0, 0, 0, 0, 0, 0, 1, 0, 0, 0, 0, 0, 0, 0, -1, 0, 1] : List ℝ).take ([(1 : ℝ), 0, 0, 0, 0, 0, 0, 0, 0, 0, 0, 0, 0, 0, 0, 0, 0, 0, 0, 1, 0, 0, 0, 0, 0, 0, 0, 0, 0, 0, 0, 0, 0, 0, 0, 0, 0, 0, 0, 0, 1, 0, 667 / 1000] : List ℝ).length = [(0 : ℝ), 0, 1, 0, 0, 0, 0, 0, 0, 0, 0, 0, 0, 0, 0, 0, 0, 0, 0, 0, 0, 0, 0, 0, 0, 0, 0, 0, 0, 0, 0, 0, 1, 0, 0, 0, 0, 0, 0, 0, -1, 0, 1] := rfl
    rw [htake]
    have hdot : (List.zipWith (fun x y => x * y) ([(1 : ℝ), 0, 0, 0, 0, 0, 0, 0, 0, 0, 0, 0, 0, 0, 0, 0, 0, 0, 0, 1, 0, 0, 0, 0, 0, 0, 0, 0, 0, 0, 0, 0, 0, 0, 0, 0, 0, 0, 0, 0, 1, 0, 667 / 1000] : List ℝ) [(0 : ℝ), 0, 1, 0, 0, 0, 0, 0, 0, 0, 0, 0, 0, 0, 0, 0, 0, 0, 0, 0, 0, 0, 0, 0, 0, 0, 0, 0, 0, 0, 0, 0, 1, 0, 0, 0, 0, 0, 0, 0, -1, 0, 1]).sum
        = -333 / 1000 := by
      norm_num
    have hmagA : (([(1 : ℝ), 0, 0, 0, 0, 0, 0, 0, 0, 0, 0, 0, 0, 0, 0, 0, 0, 0, 0, 1, 0, 0, 0, 0, 0, 0, 0, 0, 0, 0, 0, 0, 0, 0, 0, 0, 0, 0, 0, 0, 1, 0, 667 / 1000] : List ℝ).map (fun x => x ^ 2)).sum = 3444889 / 1000000 := by
      norm_num
    have hmagB : (([(0 : ℝ), 0, 1, 0, 0, 0, 0, 0, 0, 0, 0, 0, 0, 0, 0, 0, 0, 0, 0, 0, 0, 0, 0, 0, 0, 0, 0, 0, 0, 0, 0, 0, 1, 0, 0, 0, 0, 0, 0, 0, -1, 0, 1] : List ℝ).map (fun x => x ^ 2)).sum = 4 := by
      norm_num
    rw [hdot, hmagA, hmagB]
    have hs4 : Real.sqrt (4 : ℝ) = 2 := by
      rw [show (4 : ℝ) = 2 ^ 2 by norm_num]
      exact Real.sqrt_sq (by norm_num)
    have hsA0 : (0 : ℝ) < Real.sqrt (3444889 / 1000000) :=
      Real.sqrt_pos.mpr (by norm_num)
    have hsA2 : Real.sqrt (3444889 / 1000000 : ℝ) < 2 := by
      have h := Real.sqrt_lt_sqrt (by norm_num : (0 : ℝ) ≤ 3444889 / 1000000)
        (by norm_num : (3444889 / 1000000 : ℝ) < 4)
      rwa [hs4] at h
    have hdenom : (0 : ℝ) < Real.sqrt (3444889 / 1000000) * Real.sqrt 4 := by
      rw [hs4]
      linarith
    rw [if_neg (ne_of_gt hdenom)]
    have hcosle : (-333 / 1000 : ℝ) / (Real.sqrt (3444889 / 1000000) * Real.sqrt 4)
        ≤ -333 / 4000 := by
      rw [hs4]
      rw [div_le_iff₀ (by linarith)]
      nlinarith
    set x : ℝ := (-333 / 1000 : ℝ) / (Real.sqrt (3444889 / 1000000) * Real.sqrt 4) with hx
    unfold jsRoundR
    have hy : x * 10 ^ 4 + 1 / 2 < 0 := by
      have : x ≤ -333 / 4000 := hcosle
      nlinarith
    have hfl : ⌊x * 10 ^ 4 + 1 / 2⌋ < 0 := by
      rw [Int.floor_lt]
      push_cast
      exact hy
    have hcast : ((⌊x * 10 ^ 4 + 1 / 2⌋ : ℤ) : ℝ) < 0 := by
      exact_mod_cast hfl
    have hpow : (0 : ℝ) < 10 ^ 4 := by norm_num
    exact div_neg_of_neg_of_pos hcast hpow

end Hangul
